import Mathlib

/-!
Verification of the b0t workflow execution engine specification against the
repository sources.

The repository's workflow executor (`src/lib/workflows/executor.ts`) is not
part of the provided sources; only its test driver
(`scripts/test-parallel-execution.ts`) and the specification describe it.
Definitions for the dependency-graph builder, the variable-resolution engine
and the wave scheduler are therefore modelled from the spec, as flagged in
their doc comments.  The custom-JavaScript capability
(`src/modules/utilities/javascript.ts`) and the job-queue setup
(`src/lib/jobs/wordpress-auto-blog.ts`, YouTube section) are present in the
sources and are embedded directly from the code.
-/

namespace B0t

/- JSON-like value trees: the shape of step inputs, outputs and the
execution context.  Arrays and object field lists are mutual inductives so
that structural recursion and induction stay primitive. -/
mutual
/-- One JSON-like value of a step input tree or the execution context. -/
inductive Value where
  | vNull : Value
  | vBool : Bool → Value
  | vNum : Int → Value
  | vStr : String → Value
  | vArr : VList → Value
  | vObj : VFields → Value
deriving DecidableEq
/-- A list of values, the payload of a JSON array. -/
inductive VList where
  | nil : VList
  | cons : Value → VList → VList
deriving DecidableEq
/-- An ordered field list, the payload of a JSON object. -/
inductive VFields where
  | nil : VFields
  | cons : String → Value → VFields → VFields
deriving DecidableEq
end

/-- Lookup of a field in an object, later occurrences shadowing earlier ones
(the semantics of repeated keys in a JavaScript object literal). -/
def VFields.find : VFields → String → Option Value
  | .nil, _ => none
  | .cons k' v rest, k =>
    match VFields.find rest k with
    | some w => some w
    | none => if k' = k then some v else none

/-- Element lookup in a value list by position. -/
def VList.get : VList → Nat → Option Value
  | .nil, _ => none
  | .cons v _, 0 => some v
  | .cons _ rest, n + 1 => VList.get rest n

/-- Appending a binding at the end of a field list (writing a step output
into the execution context). -/
def VFields.push : VFields → String → Value → VFields
  | .nil, k, v => .cons k v .nil
  | .cons k' v' rest, k, v => .cons k' v' (VFields.push rest k v)

/-- The left brace character, the building block of placeholder syntax. -/
def lbrace : Char := Char.ofNat 123

/-- The right brace character. -/
def rbrace : Char := Char.ofNat 125

/-- Renders a doubled-brace placeholder around a raw expression text. -/
def wrapBraces (raw : String) : String :=
  String.mk [lbrace, lbrace] ++ raw ++ String.mk [rbrace, rbrace]

/-- First character of an identifier: letter, underscore or dollar. -/
def isIdentStart (c : Char) : Bool := c.isAlpha || c = '_' || c = '$'

/-- Subsequent identifier characters: alphanumeric, underscore or dollar. -/
def isIdentChar (c : Char) : Bool := c.isAlphanum || c = '_' || c = '$'

/-- One accessor of a placeholder path: dot access or bracket index
(spec grammar: identifier, then zero or more `.identifier` / `[index]`). -/
inductive Acc where
  | field : String → Acc
  | index : Nat → Acc
deriving DecidableEq

/-- A parsed placeholder path: root identifier plus accessors. -/
structure PathExpr where
  root : String
  accs : List Acc
deriving DecidableEq

/-- One piece of a parsed template string: literal text, or a placeholder
hole keeping both its raw text and its parsed path. -/
inductive TPart where
  | lit : String → TPart
  | hole : String → PathExpr → TPart
deriving DecidableEq

/-- Splits a run of identifier characters off the front of a char list. -/
def takeIdent : List Char → List Char × List Char
  | [] => ([], [])
  | c :: rest =>
    if isIdentChar c then
      let p := takeIdent rest
      (c :: p.1, p.2)
    else ([], c :: rest)

/-- Splits a run of decimal digits off the front of a char list. -/
def takeDigits : List Char → List Char × List Char
  | [] => ([], [])
  | c :: rest =>
    if c.isDigit then
      let p := takeDigits rest
      (c :: p.1, p.2)
    else ([], c :: rest)

/-- Numeric value of a digit run. -/
def natOfDigits (cs : List Char) : Nat :=
  cs.foldl (fun n c => n * 10 + (c.toNat - 48)) 0

/-- Parses the accessor suffix of a placeholder path (`.ident` and
`[index]` steps, spec section 4.2 grammar); fuel-driven so that concrete
evaluation reduces definitionally.  Fails on any malformed suffix. -/
def parseAccs : Nat → List Char → Option (List Acc)
  | _, [] => some []
  | 0, _ :: _ => none
  | fuel + 1, c :: rest =>
    if c = '.' then
      match takeIdent rest with
      | ([], _) => none
      | (c0 :: cs, rest') =>
        if isIdentStart c0 then
          match parseAccs fuel rest' with
          | some accs => some (.field (String.mk (c0 :: cs)) :: accs)
          | none => none
        else none
    else if c = '[' then
      match takeDigits rest with
      | ([], _) => none
      | (d :: ds, rest') =>
        match rest' with
        | ']' :: rest'' =>
          match parseAccs fuel rest'' with
          | some accs => some (.index (natOfDigits (d :: ds)) :: accs)
          | none => none
        | _ => none
    else none

/-- Parses a complete placeholder path expression from raw text. -/
def parsePath (raw : String) : Option PathExpr :=
  let cs := raw.toList
  match takeIdent cs with
  | ([], _) => none
  | (c0 :: cs0, rest) =>
    if isIdentStart c0 then
      match parseAccs rest.length rest with
      | some accs => some ⟨String.mk (c0 :: cs0), accs⟩
      | none => none
    else none

/-- Finds the first closing doubled brace in a char list, returning the
chars before it and the chars after it. -/
def findClose : List Char → Option (List Char × List Char)
  | [] => none
  | [_] => none
  | c :: c2 :: rest =>
    if c = rbrace ∧ c2 = rbrace then some ([], rest)
    else
      match findClose (c2 :: rest) with
      | some (inner, after) => some (c :: inner, after)
      | none => none

/-- Adds one literal character in front of a part list, merging with a
leading literal part so that literal runs stay contiguous. -/
def pushLit (c : Char) : List TPart → List TPart
  | .lit s :: ps => .lit (String.mk (c :: s.toList)) :: ps
  | ps => .lit (String.mk [c]) :: ps

/-- Template scanner: decomposes a string into literal runs and
well-formed `(doubled-brace) path (doubled-brace)` placeholder holes;
malformed placeholder text is kept as literal text.  Fuel-driven on the
character count. -/
def parseTemplateAux : Nat → List Char → List TPart
  | _, [] => []
  | 0, cs => cs.map (fun c => .lit (String.mk [c]))
  | fuel + 1, c :: rest =>
    if c = lbrace then
      match rest with
      | c2 :: rest2 =>
        if c2 = lbrace then
          match findClose rest2 with
          | some (inner, after) =>
            match parsePath (String.mk inner) with
            | some p => .hole (String.mk inner) p :: parseTemplateAux fuel after
            | none => pushLit c (parseTemplateAux fuel rest)
          | none => pushLit c (parseTemplateAux fuel rest)
        else pushLit c (parseTemplateAux fuel rest)
      | [] => [.lit (String.mk [c])]
    else pushLit c (parseTemplateAux fuel rest)

/-- Modelled from the spec: the placeholder grammar of the variable
resolution engine (spec section 4.2), applied to one string of a step's
input tree.  The executor source is absent from src/. -/
def parseTemplate (s : String) : List TPart :=
  parseTemplateAux s.toList.length s.toList

/-- Root names of every well-formed placeholder in a template string (used
by the dependency-graph builder to find references to output bindings). -/
def rootsOfTemplate (s : String) : List String :=
  (parseTemplate s).filterMap fun p =>
    match p with
    | .hole _ path => some path.root
    | .lit _ => none

/-- One accessor step against a value: field access on objects, index
access on arrays; anything else is a missing path segment. -/
def getAcc (v : Value) : Acc → Option Value
  | .field k =>
    match v with
    | .vObj fs => fs.find k
    | _ => none
  | .index i =>
    match v with
    | .vArr xs => xs.get i
    | _ => none

/-- Walks an accessor chain from a value; fails on the first missing
segment. -/
def walkAccs : Value → List Acc → Option Value
  | v, [] => some v
  | v, a :: rest =>
    match getAcc v a with
    | some w => walkAccs w rest
    | none => none

/-- Modelled from the spec: placeholder path lookup of the variable
resolution engine against the execution context (binding name, then dot
and bracket accessors).  The executor source is absent from src/. -/
def lookupPath (ctx : VFields) (p : PathExpr) : Option Value :=
  match ctx.find p.root with
  | some v => walkAccs v p.accs
  | none => none

mutual
/-- String form of a resolved value spliced into interpolated text. -/
def stringify : Value → String
  | .vNull => "null"
  | .vBool true => "true"
  | .vBool false => "false"
  | .vNum n => toString n
  | .vStr s => s
  | .vArr xs => "[" ++ stringifyList xs ++ "]"
  | .vObj fs => "\x7b" ++ stringifyFields fs ++ "\x7d"
/-- Comma-separated rendering of array elements. -/
def stringifyList : VList → String
  | .nil => ""
  | .cons v .nil => stringify v
  | .cons v rest => stringify v ++ "," ++ stringifyList rest
/-- Comma-separated rendering of object fields. -/
def stringifyFields : VFields → String
  | .nil => ""
  | .cons k v .nil => k ++ ":" ++ stringify v
  | .cons k v rest => k ++ ":" ++ stringify v ++ "," ++ stringifyFields rest
end

/-- A resolution failure: the exact placeholder expression that could not
be resolved and the id of the step that referenced it (spec section 4.2
failure mode). -/
structure ResolutionError where
  expr : String
  stepId : String
deriving DecidableEq

/-- Interpolation of a part list: literal runs are kept, resolved holes
are stringified and spliced in; the first unresolvable hole aborts with a
`ResolutionError` naming it. -/
def resolveParts (stepId : String) (ctx : VFields) : List TPart → Except ResolutionError String
  | [] => .ok ""
  | .lit s :: rest =>
    match resolveParts stepId ctx rest with
    | .ok tail => .ok (s ++ tail)
    | .error e => .error e
  | .hole raw p :: rest =>
    match lookupPath ctx p with
    | some v =>
      match resolveParts stepId ctx rest with
      | .ok tail => .ok (stringify v ++ tail)
      | .error e => .error e
    | none => .error ⟨wrapBraces raw, stepId⟩

/-- Modelled from the spec: resolution of one string of an input tree
(spec section 4.2).  A string that is exactly one placeholder resolves to
the referenced value with its type preserved; placeholders embedded in
surrounding text are stringified and spliced; an unresolvable path raises
a `ResolutionError` naming the expression and the referencing step. -/
def resolveString (stepId : String) (ctx : VFields) (s : String) : Except ResolutionError Value :=
  match parseTemplate s with
  | [.hole raw p] =>
    match lookupPath ctx p with
    | some v => .ok v
    | none => .error ⟨wrapBraces raw, stepId⟩
  | parts =>
    match resolveParts stepId ctx parts with
    | .ok out => .ok (.vStr out)
    | .error e => .error e

mutual
/-- Modelled from the spec: recursive resolution of a whole input tree
(`resolve(inputTree, context)`, spec section 4.2); arrays and objects are
traversed recursively, non-string scalars pass through unchanged. -/
def resolveTree (stepId : String) (ctx : VFields) : Value → Except ResolutionError Value
  | .vNull => .ok .vNull
  | .vBool b => .ok (.vBool b)
  | .vNum n => .ok (.vNum n)
  | .vStr s => resolveString stepId ctx s
  | .vArr xs =>
    match resolveList stepId ctx xs with
    | .ok ys => .ok (.vArr ys)
    | .error e => .error e
  | .vObj fs =>
    match resolveFields stepId ctx fs with
    | .ok gs => .ok (.vObj gs)
    | .error e => .error e
/-- Resolution mapped over array elements. -/
def resolveList (stepId : String) (ctx : VFields) : VList → Except ResolutionError VList
  | .nil => .ok .nil
  | .cons v rest =>
    match resolveTree stepId ctx v with
    | .ok w =>
      match resolveList stepId ctx rest with
      | .ok ws => .ok (.cons w ws)
      | .error e => .error e
    | .error e => .error e
/-- Resolution mapped over object field values. -/
def resolveFields (stepId : String) (ctx : VFields) : VFields → Except ResolutionError VFields
  | .nil => .ok .nil
  | .cons k v rest =>
    match resolveTree stepId ctx v with
    | .ok w =>
      match resolveFields stepId ctx rest with
      | .ok ws => .ok (.cons k w ws)
      | .error e => .error e
    | .error e => .error e
end

mutual
/-- All placeholder holes of an input tree, as raw text and parsed path,
in traversal order. -/
def treeHoles : Value → List (String × PathExpr)
  | .vNull => []
  | .vBool _ => []
  | .vNum _ => []
  | .vStr s =>
    (parseTemplate s).filterMap fun p =>
      match p with
      | .hole raw path => some (raw, path)
      | .lit _ => none
  | .vArr xs => treeHolesList xs
  | .vObj fs => treeHolesFields fs
/-- Placeholder holes of array elements. -/
def treeHolesList : VList → List (String × PathExpr)
  | .nil => []
  | .cons v rest => treeHoles v ++ treeHolesList rest
/-- Placeholder holes of object field values. -/
def treeHolesFields : VFields → List (String × PathExpr)
  | .nil => []
  | .cons _ v rest => treeHoles v ++ treeHolesFields rest
end

/-- Whether one template part is an unresolvable hole in a context. -/
def partFails (ctx : VFields) : TPart → Bool
  | .hole _ p => (lookupPath ctx p).isNone
  | .lit _ => false

mutual
/-- Whether some placeholder of the tree has a path that does not resolve
against the context. -/
def treeFails (ctx : VFields) : Value → Bool
  | .vNull => false
  | .vBool _ => false
  | .vNum _ => false
  | .vStr s => (parseTemplate s).any (partFails ctx)
  | .vArr xs => listFails ctx xs
  | .vObj fs => fieldsFails ctx fs
/-- Unresolvable-placeholder check over array elements. -/
def listFails (ctx : VFields) : VList → Bool
  | .nil => false
  | .cons v rest => treeFails ctx v || listFails ctx rest
/-- Unresolvable-placeholder check over object field values. -/
def fieldsFails (ctx : VFields) : VFields → Bool
  | .nil => false
  | .cons _ v rest => treeFails ctx v || fieldsFails ctx rest
end

/-- The execution context of the specification example:
step1 bound to an object with output.field = 5. -/
def exampleContext : VFields :=
  .cons "step1" (.vObj (.cons "output" (.vObj (.cons "field" (.vNum 5) .nil)) .nil)) .nil

mutual
/-- Root identifiers of every placeholder in an input tree (the references
the dependency-graph builder scans for, spec section 4.1). -/
def rootsOfValue : Value → List String
  | .vNull => []
  | .vBool _ => []
  | .vNum _ => []
  | .vStr s => rootsOfTemplate s
  | .vArr xs => rootsOfList xs
  | .vObj fs => rootsOfFields fs
/-- Placeholder roots of array elements. -/
def rootsOfList : VList → List String
  | .nil => []
  | .cons v rest => rootsOfValue v ++ rootsOfList rest
/-- Placeholder roots of object field values. -/
def rootsOfFields : VFields → List String
  | .nil => []
  | .cons _ v rest => rootsOfValue v ++ rootsOfFields rest
end

/-- A normalized workflow step: id, capability path, raw input tree and
output binding name (external interface, spec sections 3 and 6). -/
structure Step where
  id : String
  capabilityPath : String
  inputs : Value
  outputAs : String
deriving DecidableEq

/-- Modelled from the spec: the dependency edges of one step — the ids of
the steps whose output binding is referenced by a placeholder root in its
raw inputs (spec section 4.1).  The executor source is absent from src/. -/
def depsOf (steps : List Step) (s : Step) : List String :=
  (steps.filter fun t => (rootsOfValue s.inputs).contains t.outputAs).map Step.id

/-- First-match association lookup for wave assignments. -/
def findWave : List (String × Nat) → String → Option Nat
  | [], _ => none
  | e :: rest, k => if e.1 = k then some e.2 else findWave rest k

/-- Looks up the assigned waves of all dependencies; fails if any
dependency is still unassigned. -/
def depWaves (assigned : List (String × Nat)) : List String → Option (List Nat)
  | [] => some []
  | d :: ds =>
    match findWave assigned d, depWaves assigned ds with
    | some w, some ws => some (w :: ws)
    | _, _ => none

/-- The earliest-wave formula of spec section 4.1: one more than the
maximum assigned wave of the dependencies — wave 1 when there are none —
and undefined while some dependency is unassigned. -/
def waveFormula (assigned : List (String × Nat)) (ds : List String) : Option Nat :=
  match depWaves assigned ds with
  | some ws => some (ws.foldr max 0 + 1)
  | none => none

/-- Whether a step id already has a wave. -/
def isAssigned (assigned : List (String × Nat)) (id : String) : Bool :=
  (findWave assigned id).isSome

/-- One pass of the wave-assignment loop: every not-yet-assigned step all
of whose dependencies already have waves receives the earliest-wave
formula value, computed against the assignment at the start of the pass. -/
def assignReady (steps : List Step) (assigned : List (String × Nat)) : List (String × Nat) :=
  steps.filterMap fun s =>
    if isAssigned assigned s.id then none
    else
      match waveFormula assigned (depsOf steps s) with
      | some w => some (s.id, w)
      | none => none

/-- Modelled from the spec: the Kahn-style wave-assignment loop of the
dependency-graph builder (spec section 4.1); a pass that assigns nothing
while steps remain is a cycle and yields none. -/
def assignLoop (steps : List Step) : Nat → List (String × Nat) → Option (List (String × Nat))
  | 0, assigned =>
    if steps.all fun s => isAssigned assigned s.id then some assigned else none
  | fuel + 1, assigned =>
    if steps.all fun s => isAssigned assigned s.id then some assigned
    else
      let ready := assignReady steps assigned
      if ready.isEmpty then none
      else assignLoop steps fuel (assigned ++ ready)

/-- Modelled from the spec: wave assignment for a workflow — each step to
the earliest possible wave, or none when the dependency graph is cyclic
(spec section 4.1). -/
def assignWaves (steps : List Step) : Option (List (String × Nat)) :=
  assignLoop steps steps.length []

/-- Acyclicity of the step dependency graph: some ranking of step ids
strictly decreases along every dependency edge. -/
def Acyclic (steps : List Step) : Prop :=
  ∃ r : String → Nat, ∀ s ∈ steps, ∀ d ∈ depsOf steps s, r d < r s.id

/-- Invariant of the wave-assignment loop: keys are distinct step ids and
every assigned entry satisfies the earliest-wave formula against the
current assignment. -/
def WaveInvariant (steps : List Step) (assigned : List (String × Nat)) : Prop :=
  (assigned.map Prod.fst).Nodup ∧
  ∀ e ∈ assigned, ∃ s ∈ steps, s.id = e.1 ∧
    waveFormula assigned (depsOf steps s) = some e.2

/-- Per-step outcome recorded in the run result (spec section 4.5):
Success with output, Failed with error text, or Skipped. -/
inductive StepOutcome where
  | success : Value → StepOutcome
  | failed : String → StepOutcome
  | skipped : StepOutcome
deriving DecidableEq

/-- Overall run status (spec section 4.5): Failed if any step is Failed,
else Success. -/
inductive RunStatus where
  | success : RunStatus
  | failure : RunStatus
deriving DecidableEq

/-- The persisted result of one run: per-step outcomes, the ids of steps
whose capability was actually invoked, and the overall status. -/
structure RunResult where
  results : List (String × StepOutcome)
  invoked : List String
  status : RunStatus
deriving DecidableEq

/-- Outcome of submitting a workflow: a ConfigurationError detected
before any step executes, or a completed run. -/
inductive RunOutcome where
  | configError : String → RunOutcome
  | completed : RunResult → RunOutcome
deriving DecidableEq

/-- The step ids whose capability was invoked; none when the run aborted
with a ConfigurationError. -/
def RunOutcome.invokedSteps : RunOutcome → List String
  | .configError _ => []
  | .completed r => r.invoked

/-- State threaded through wave execution: the execution context, the
recorded results, the invoked step ids and the fail-fast flag. -/
structure ExecState where
  ctx : VFields
  results : List (String × StepOutcome)
  invoked : List String
  anyFailed : Bool

/-- Error text recorded for a step whose inputs failed to resolve. -/
def resolutionMessage (e : ResolutionError) : String :=
  "Cannot resolve " ++ e.expr ++ " for step " ++ e.stepId

/-- Modelled from the spec: the step executor state machine (spec section
4.5) — resolve the inputs, invoke the capability, record Success or
Failed, and write the output under the step output binding on success.
The executor source is absent from src/. -/
def execStep (cap : String → Value → Except String Value) (st : ExecState) (s : Step) :
    ExecState :=
  match resolveTree s.id st.ctx s.inputs with
  | .error e =>
    { st with results := st.results ++ [(s.id, .failed (resolutionMessage e))],
              anyFailed := true }
  | .ok inputs =>
    match cap s.capabilityPath inputs with
    | .error m =>
      { st with results := st.results ++ [(s.id, .failed m)],
                invoked := st.invoked ++ [s.id], anyFailed := true }
    | .ok out =>
      { st with results := st.results ++ [(s.id, .success out)],
                invoked := st.invoked ++ [s.id],
                ctx := st.ctx.push s.outputAs out }

/-- Runs every step of one wave; steps of a wave all run even when a
sibling fails (spec section 4.5: no forced cancellation of siblings). -/
def execWave (cap : String → Value → Except String Value) (st : ExecState)
    (wave : List Step) : ExecState :=
  wave.foldl (execStep cap) st

/-- Marks every step of a not-yet-started wave Skipped without invoking
anything. -/
def skipWave (st : ExecState) (wave : List Step) : ExecState :=
  { st with results := st.results ++ wave.map fun s => (s.id, StepOutcome.skipped) }

/-- Modelled from the spec: the wave scheduler (spec section 4.6) — waves
run strictly in order, and once a failure is observed all remaining waves
are skipped. -/
def execWaves (cap : String → Value → Except String Value) :
    List (List Step) → ExecState → ExecState
  | [], st => st
  | wv :: rest, st =>
    if st.anyFailed then execWaves cap rest (skipWave st wv)
    else execWaves cap rest (execWave cap st wv)

/-- The steps assigned to wave k. -/
def stepsInWave (steps : List Step) (w : List (String × Nat)) (k : Nat) : List Step :=
  steps.filter fun s => findWave w s.id == some k

/-- Largest assigned wave index. -/
def maxWave (w : List (String × Nat)) : Nat :=
  (w.map Prod.snd).foldr max 0

/-- The ordered wave partition induced by a wave assignment. -/
def wavesOf (steps : List Step) (w : List (String × Nat)) : List (List Step) :=
  (List.range (maxWave w)).map fun i => stepsInWave steps w (i + 1)

/-- The ConfigurationError surfaced for a cyclic dependency graph. -/
def cycleMessage : String :=
  "Configuration error: workflow steps contain a dependency cycle"

/-- Modelled from the spec: one full workflow run — build the dependency
graph and waves before any step executes, abort with ConfigurationError on
a cycle, otherwise execute the waves in order from a fresh context (spec
sections 4.1, 4.5, 4.6).  The executor source is absent from src/. -/
def runWorkflow (cap : String → Value → Except String Value) (steps : List Step) :
    RunOutcome :=
  match assignWaves steps with
  | none => .configError cycleMessage
  | some w =>
    let fin := execWaves cap (wavesOf steps w) ⟨.nil, [], [], false⟩
    .completed ⟨fin.results, fin.invoked, if fin.anyFailed then .failure else .success⟩

/-- Circuit-breaker phases: Closed, Open since a given time, HalfOpen
(spec section 4.4). -/
inductive BreakerPhase where
  | closedPhase : BreakerPhase
  | openPhase : Nat → BreakerPhase
  | halfOpenPhase : BreakerPhase
deriving DecidableEq

/-- Circuit-breaker state: phase plus rolling failure/total counters. -/
structure BreakerState where
  phase : BreakerPhase
  failures : Nat
  total : Nat
deriving DecidableEq

/-- The opossum option record passed by the code: timeout,
errorThresholdPercentage, resetTimeout. -/
structure BreakerOptions where
  timeout : Nat
  errorThresholdPercentage : Nat
  resetTimeout : Nat
deriving DecidableEq

/-- The breaker configuration of src/modules/utilities/javascript.ts
lines 23-27: timeout 30000 ms, error threshold 50 percent, reset timeout
30000 ms. -/
def breakerOptions : BreakerOptions := ⟨30000, 50, 30000⟩

/-- A freshly constructed breaker: Closed with zeroed counters. -/
def initBreaker : BreakerState := ⟨.closedPhase, 0, 0⟩

/-- Result of one call through a breaker: whether the wrapped capability
was invoked, and the next breaker state. -/
structure FireResult where
  invoked : Bool
  state : BreakerState
deriving DecidableEq

/-- Modelled from the spec: one call through the circuit-breaker state
machine of spec section 4.4 (the opossum library itself is an external
dependency, not in src/).  Open rejects without invoking until the reset
period elapses, then one trial call: success closes and resets counters,
failure reopens and restarts the timer; Closed trips Open when the error
rate reaches the threshold. -/
def breakerFire (opts : BreakerOptions) (st : BreakerState) (now : Nat) (succ : Bool) :
    FireResult :=
  match st.phase with
  | .openPhase openedAt =>
    if now < openedAt + opts.resetTimeout then ⟨false, st⟩
    else if succ then ⟨true, initBreaker⟩
    else ⟨true, ⟨.openPhase now, st.failures + 1, st.total + 1⟩⟩
  | .halfOpenPhase =>
    if succ then ⟨true, initBreaker⟩
    else ⟨true, ⟨.openPhase now, st.failures + 1, st.total + 1⟩⟩
  | .closedPhase =>
    let total := st.total + 1
    let fails := if succ then st.failures else st.failures + 1
    if fails * 100 ≥ opts.errorThresholdPercentage * total then
      ⟨true, ⟨.openPhase now, fails, total⟩⟩
    else ⟨true, ⟨.closedPhase, fails, total⟩⟩

/-- The execute() function as written in
src/modules/utilities/javascript.ts lines 93-94: a NEW CircuitBreaker is
constructed inside execute on every call, so each call fires a fresh
breaker; the list records, per call (time, script success), whether the
wrapped operation was invoked. -/
def executePerCall (opts : BreakerOptions) (calls : List (Nat × Bool)) : List Bool :=
  calls.map fun c => (breakerFire opts initBreaker c.1 c.2).invoked

/-- The behaviour the claim describes: one per-integration breaker whose
state is threaded across the sequence of calls. -/
def executePersistent (opts : BreakerOptions) (calls : List (Nat × Bool)) : List Bool :=
  (calls.foldl (fun acc c =>
    let r := breakerFire opts acc.1 c.1 c.2
    (r.state, acc.2 ++ [r.invoked])) (initBreaker, [])).2

/-- A BullMQ removeOnComplete / removeOnFail retention policy. -/
structure RemovalPolicy where
  age : Nat
  count : Nat
deriving DecidableEq

/-- The defaultJobOptions shape passed to createQueue. -/
structure QueueJobOptions where
  attempts : Nat
  backoffExponential : Bool
  backoffDelay : Nat
  removeOnComplete : RemovalPolicy
  removeOnFail : RemovalPolicy
deriving DecidableEq

/-- The YouTube reply queue options of
src/lib/jobs/wordpress-auto-blog.ts lines 162-178: 3 attempts,
exponential backoff with 5000 ms base delay, completed jobs kept 24 h,
failed jobs kept 7 days. -/
def youtubeReplyJobOptions : QueueJobOptions :=
  ⟨3, true, 5000, ⟨86400, 100⟩, ⟨604800, 500⟩⟩

/-- Modelled from the spec: the exponential backoff formula of spec
section 4.7, delay = baseDelay * multiplier ^ (attempt - 1) (the BullMQ
queue layer is an external dependency, not in src/). -/
def backoffDelay (base mult attempt : Nat) : Nat := base * mult ^ (attempt - 1)

/-- One attempt of a retryable job: its number, the wait before it, and
the outcome of the full run it performed. -/
structure JobAttempt where
  attemptNumber : Nat
  waitBefore : Nat
  outcome : RunOutcome
deriving DecidableEq

/-- Whether a run outcome triggers a job-level retry: failed runs do, a
ConfigurationError is never retried (spec section 7). -/
def runShouldRetry : RunOutcome → Bool
  | .configError _ => false
  | .completed r =>
    match r.status with
    | .failure => true
    | .success => false

/-- Modelled from the spec: the job retry loop of spec section 4.7 — each
attempt re-executes the ENTIRE workflow from step 1 (runWorkflow always
starts from a fresh context), waiting the current backoff delay before
every attempt after the first and multiplying it for the next one. -/
def runJobAux (cap : String → Value → Except String Value) (steps : List Step) (mult : Nat) :
    Nat → Nat → Nat → List JobAttempt
  | 0, _, _ => []
  | rem + 1, a, curDelay =>
    let o := runWorkflow cap steps
    let att : JobAttempt := ⟨a, if a = 1 then 0 else curDelay, o⟩
    if runShouldRetry o then att :: runJobAux cap steps mult rem (a + 1) (curDelay * mult)
    else [att]

/-- A job run under given queue options: at most opts.attempts attempts,
starting from the configured base delay. -/
def runJob (cap : String → Value → Except String Value) (steps : List Step)
    (opts : QueueJobOptions) (mult : Nat) : List JobAttempt :=
  runJobAux cap steps mult opts.attempts 1 opts.backoffDelay

/-- Host-realm functions observable from inside the vm sandbox: the
console closures installed by execute(), and the host Function
constructor they expose. -/
inductive HostFn where
  | consoleLog : HostFn
  | consoleError : HostFn
  | consoleWarn : HostFn
  | functionConstructor : HostFn
deriving DecidableEq

/-- Values of the sandbox model: undefined, plain JSON data, the console
object built from host closures, host functions, and the host process
object. -/
inductive JSVal where
  | undef : JSVal
  | json : Value → JSVal
  | consoleObj : JSVal
  | hostFn : HostFn → JSVal
  | hostProcess : JSVal
deriving DecidableEq

/-- Lookup in a JavaScript object literal: a later key shadows an earlier
one, so the undefined bindings written after the context spread always
win. -/
def sbFind : List (String × JSVal) → String → Option JSVal
  | [], _ => none
  | e :: rest, k =>
    match sbFind rest k with
    | some v => some v
    | none => if e.1 = k then some e.2 else none

/-- The sandbox object literal built by execute() in
src/modules/utilities/javascript.ts lines 46-61: the user context spread
first, then console bound to host closures, then require, process,
global, setTimeout, setInterval, setImmediate, __dirname and __filename
bound to undefined. -/
def executeSandbox (context : List (String × JSVal)) : List (String × JSVal) :=
  context ++
    [("console", .consoleObj),
     ("setTimeout", .undef), ("setInterval", .undef), ("setImmediate", .undef),
     ("process", .undef), ("global", .undef), ("require", .undef),
     ("__dirname", .undef), ("__filename", .undef)]

/-- Modelled from JavaScript semantics (external to src/): property
access — the console object exposes its three host closures, and every
host-realm function exposes the host Function intrinsic through its
constructor property. -/
def jsProp : JSVal → String → Option JSVal
  | .consoleObj, "log" => some (.hostFn .consoleLog)
  | .consoleObj, "error" => some (.hostFn .consoleError)
  | .consoleObj, "warn" => some (.hostFn .consoleWarn)
  | .hostFn _, "constructor" => some (.hostFn .functionConstructor)
  | _, _ => none

/-- Modelled from Node.js semantics (external to src/): what a script
running in the vm context can reach — any sandbox binding, any property
of a reachable value, and, by calling the host Function constructor with
source text, code evaluated in the host realm where process is a global. -/
inductive Reaches (sandbox : List (String × JSVal)) : JSVal → Prop where
  | binding : ∀ k v, sbFind sandbox k = some v → Reaches sandbox v
  | prop : ∀ v k v2, Reaches sandbox v → jsProp v k = some v2 → Reaches sandbox v2
  | hostEval : Reaches sandbox (.hostFn .functionConstructor) → Reaches sandbox .hostProcess

/-- The npm modules behind the allowlist of executeWithPackages
(lodash and its underscore alias, dayjs, uuid, crypto-js). -/
inductive PkgModule where
  | lodashModule : PkgModule
  | dayjsModule : PkgModule
  | uuidModule : PkgModule
  | cryptoJsModule : PkgModule
deriving DecidableEq

/-- The five own entries of the allowedPackages object literal in
src/modules/utilities/javascript.ts lines 116-122 (lodash and its
underscore alias, dayjs, uuid, crypto-js). -/
def allowedPackagesOwn : String → Option PkgModule
  | "lodash" => some .lodashModule
  | "_" => some .lodashModule
  | "dayjs" => some .dayjsModule
  | "uuid" => some .uuidModule
  | "crypto-js" => some .cryptoJsModule
  | _ => none

/-- Modelled from JavaScript semantics (external to src/): the property
names every plain object literal inherits from Object.prototype.  The
source reads allowedPackages[pkg] without an own-property check, so a
lookup under any of these names yields the inherited host value instead
of undefined. -/
def objectPrototypeMember : String → Bool
  | "constructor" => true
  | "hasOwnProperty" => true
  | "isPrototypeOf" => true
  | "propertyIsEnumerable" => true
  | "toLocaleString" => true
  | "toString" => true
  | "valueOf" => true
  | "__proto__" => true
  | "__defineGetter__" => true
  | "__defineSetter__" => true
  | "__lookupGetter__" => true
  | "__lookupSetter__" => true
  | _ => false

/-- The truthiness test !allowedPackages[pkg] performed at lines 125 and
131 of src/modules/utilities/javascript.ts: true for the five own
entries (arrow-function factories) and for every Object.prototype member
reached through the prototype chain, since all those inherited values
are truthy (functions, or Object.prototype itself for the __proto__
accessor). -/
def allowedPackagesTruthy (pkg : String) : Bool :=
  (allowedPackagesOwn pkg).isSome || objectPrototypeMember pkg

/-- The rejection message thrown by the pre-execution allowlist check
(line 126). -/
def packageNotAllowedMsg (p : String) : String :=
  "Package \x27" ++ p ++ "\x27 is not allowed"

/-- The message thrown by the sandbox require for a module whose lookup
is falsy (line 132). -/
def cannotRequireMsg (m : String) : String :=
  "Cannot require \x27" ++ m ++ "\x27"

/-- The wrapper prefix added to errors thrown while running the script
(line 180). -/
def jsExecErrorMsg (m : String) : String :=
  "JavaScript execution error: " ++ m

/-- The for-loop over requested packages (lines 124-128): throws for the
first name whose object-literal lookup is falsy, if any; names found
through the prototype chain pass the check. -/
def checkPackages : List String → Option String
  | [] => none
  | p :: ps => if allowedPackagesTruthy p then checkPackages ps else some p

/-- What the sandbox require hands back when its lookup is truthy: one
of the five allowlisted modules, or — under an Object.prototype member
name — the host-level outcome of invoking the inherited value
(allowedPackages[moduleName]() at line 134): Object() yields a fresh
empty object for constructor, a tag string for toString, false for
hasOwnProperty, and so on. -/
inductive RequireValue where
  | moduleVal : PkgModule → RequireValue
  | inheritedCall : String → RequireValue
deriving DecidableEq

/-- Modelled from JavaScript semantics: the inherited members whose
zero-argument invocation raises a TypeError instead of returning a value
(the __proto__ accessor result is not a function; __defineGetter__ and
__defineSetter__ demand a function argument). -/
def inheritedCallFails : String → Bool
  | "__proto__" => true
  | "__defineGetter__" => true
  | "__defineSetter__" => true
  | _ => false

/-- Modelled from JavaScript semantics: the TypeError raised when the
value inherited through the prototype chain cannot be invoked as a
zero-argument function; the model only needs that it differs from the
Cannot-require rejection. -/
def inheritedCallTypeError (name : String) : String :=
  "TypeError when calling inherited member " ++ name

/-- The customRequire closure given to the sandbox (lines 130-135): the
same prototype-chain-sensitive truthiness test, then the looked-up value
is invoked — the five own entries return their module, a name inherited
from Object.prototype returns the outcome of calling the inherited host
value (never the Cannot-require rejection), and only a name whose lookup
is falsy throws Cannot require. -/
def customRequire (moduleName : String) : Except String RequireValue :=
  match allowedPackagesOwn moduleName with
  | some m => .ok (.moduleVal m)
  | none =>
    if objectPrototypeMember moduleName then
      if inheritedCallFails moduleName then .error (inheritedCallTypeError moduleName)
      else .ok (.inheritedCall moduleName)
    else .error (cannotRequireMsg moduleName)

/-- Result of executeWithPackages, together with whether the user script
was ever run. -/
structure EWPResult where
  result : Except String Value
  scriptRan : Bool

/-- executeWithPackages from src/modules/utilities/javascript.ts lines
100-135, 161-182: the allowlist check runs before any script is compiled
or run; when it passes, the script runs with customRequire in its
sandbox, and a script error is rethrown with the wrapper prefix. -/
def executeWithPackages (packages : List String)
    (runScript : (String → Except String RequireValue) → Except String Value) : EWPResult :=
  match checkPackages packages with
  | some p => ⟨.error (packageNotAllowedMsg p), false⟩
  | none =>
    match runScript customRequire with
    | .ok v => ⟨.ok v, true⟩
    | .error m => ⟨.error (jsExecErrorMsg m), true⟩

/-- The per-item execution budget of mapArray: timeout / items.length,
exactly as computed at line 260 of src/modules/utilities/javascript.ts
(rationals stand in for JavaScript number division). -/
def perItemBudget (timeout : ℚ) (n : Nat) : ℚ := timeout / n

/-- The loop body of mapArray (lines 253-262): run the user code on each
item in order with item, index and the whole array in scope, giving every
run the per-item budget, aborting on the first script error. -/
def mapArrayGo (run : Value → Nat → List Value → ℚ → Except String Value)
    (items : List Value) (timeout : ℚ) : Nat → List Value → Except String (List Value)
  | _, [] => .ok []
  | i, x :: xs =>
    match run x i items (perItemBudget timeout items.length) with
    | .error m => .error m
    | .ok v =>
      match mapArrayGo run items timeout (i + 1) xs with
      | .error m => .error m
      | .ok vs => .ok (v :: vs)

/-- mapArray from src/modules/utilities/javascript.ts lines 241-269,
with the script runner abstracted as a function of item, index, items and
wall-clock budget. -/
def mapArray (items : List Value)
    (run : Value → Nat → List Value → ℚ → Except String Value)
    (timeout : ℚ) : Except String (List Value) :=
  mapArrayGo run items timeout 0 items

/-- The testComplexDependencies workflow of
scripts/test-parallel-execution.ts lines 114-176: three independent
steps, one step reading now, one step reading add3 and add7. -/
def complexWorkflowSteps : List Step :=
  [⟨"now", "utilities.datetime.now", .vObj .nil, "now"⟩,
   ⟨"add3", "utilities.datetime.addDays", .vObj (.cons "days" (.vNum 3) .nil), "add3"⟩,
   ⟨"add7", "utilities.datetime.addDays", .vObj (.cons "days" (.vNum 7) .nil), "add7"⟩,
   ⟨"format_now", "utilities.datetime.formatDate",
     .vObj (.cons "date" (.vStr (wrapBraces "now"))
       (.cons "format" (.vStr "YYYY-MM-DD") .nil)), "format_now"⟩,
   ⟨"diff", "utilities.datetime.daysDifference",
     .vObj (.cons "date1" (.vStr (wrapBraces "add3"))
       (.cons "date2" (.vStr (wrapBraces "add7")) .nil)), "diff"⟩]

/-- A ranking witnessing acyclicity of the complex test workflow. -/
def complexRank : String → Nat :=
  fun id => if id = "format_now" then 1 else if id = "diff" then 1 else 0

/-- A two-step workflow in which each step references the other step's
output binding. -/
def cyclicSteps : List Step :=
  [⟨"stepA", "m.alpha", .vObj (.cons "x" (.vStr (wrapBraces "outB")) .nil), "outA"⟩,
   ⟨"stepB", "m.beta", .vObj (.cons "y" (.vStr (wrapBraces "outA")) .nil), "outB"⟩]

/-- A capability that echoes its resolved inputs. -/
def trivialCap : String → Value → Except String Value := fun _ v => .ok v

/-- A two-wave workflow whose first step's capability fails. -/
def failingWorkflowSteps : List Step :=
  [⟨"first", "cap.fails", .vObj .nil, "firstOut"⟩,
   ⟨"second", "cap.works", .vObj (.cons "x" (.vStr (wrapBraces "firstOut")) .nil), "secondOut"⟩]

/-- A capability registry in which cap.fails always raises. -/
def failingCap : String → Value → Except String Value :=
  fun p v => if p = "cap.fails" then .error "boom" else .ok v

/-- The run result of the failing two-wave workflow: first step Failed,
second step Skipped and never invoked, run status Failed. -/
def failingRunResult : RunResult :=
  ⟨[("first", StepOutcome.failed "boom"), ("second", StepOutcome.skipped)],
    ["first"], RunStatus.failure⟩

/-- A capability that always raises, so every job attempt fails. -/
def alwaysFailCap : String → Value → Except String Value := fun _ _ => .error "down"

/-- A minimal one-step workflow. -/
def singleStepWorkflow : List Step :=
  [⟨"only", "cap.single", .vObj .nil, "onlyOut"⟩]

/-- A user script that returns 42 without requiring anything. -/
def okScript : (String → Except String RequireValue) → Except String Value :=
  fun _ => .ok (.vNum 42)

/-- A per-item script that returns the item unchanged. -/
def identityRun : Value → Nat → List Value → ℚ → Except String Value :=
  fun x _ _ _ => .ok x

/-- Appending the empty string on the right is the identity. -/
theorem append_empty_str (s : String) : s ++ "" = s := by
  cases s with
  | mk data => show String.mk (data ++ []) = String.mk data; rw [List.append_nil]

theorem resolveParts_fails (stepId : String) (ctx : VFields) :
    ∀ parts : List TPart, parts.any (partFails ctx) = true →
      ∃ raw p, TPart.hole raw p ∈ parts ∧ lookupPath ctx p = none ∧
        resolveParts stepId ctx parts = .error ⟨wrapBraces raw, stepId⟩ := by
  intro parts h
  induction parts with
  | nil => simp at h
  | cons part rest ih =>
    cases part with
    | lit s =>
      simp only [List.any_cons, partFails, Bool.false_or] at h
      obtain ⟨raw, p, hmem, hnone, heq⟩ := ih h
      exact ⟨raw, p, List.mem_cons_of_mem _ hmem, hnone, by simp [resolveParts, heq]⟩
    | hole raw p =>
      cases hl : lookupPath ctx p with
      | none =>
        exact ⟨raw, p, List.mem_cons_self _ _, hl, by simp [resolveParts, hl]⟩
      | some v =>
        simp only [List.any_cons, partFails, hl, Option.isNone_some, Bool.false_or] at h
        obtain ⟨raw', p', hmem, hnone, heq⟩ := ih h
        exact ⟨raw', p', List.mem_cons_of_mem _ hmem, hnone, by simp [resolveParts, hl, heq]⟩

theorem resolveParts_ok (stepId : String) (ctx : VFields) :
    ∀ parts : List TPart, parts.any (partFails ctx) = false →
      ∃ out, resolveParts stepId ctx parts = .ok out := by
  intro parts h
  induction parts with
  | nil => exact ⟨"", rfl⟩
  | cons part rest ih =>
    simp only [List.any_cons, Bool.or_eq_false_iff] at h
    obtain ⟨out, hout⟩ := ih h.2
    cases part with
    | lit s => exact ⟨s ++ out, by simp [resolveParts, hout]⟩
    | hole raw p =>
      cases hl : lookupPath ctx p with
      | none => simp [partFails, hl] at h
      | some v => exact ⟨stringify v ++ out, by simp [resolveParts, hl, hout]⟩

theorem resolveString_fails (stepId : String) (ctx : VFields) (s : String)
    (h : (parseTemplate s).any (partFails ctx) = true) :
    ∃ raw p, TPart.hole raw p ∈ parseTemplate s ∧ lookupPath ctx p = none ∧
      resolveString stepId ctx s = .error ⟨wrapBraces raw, stepId⟩ := by
  unfold resolveString
  cases hp : parseTemplate s with
  | nil => rw [hp] at h; simp at h
  | cons part rest =>
    rw [hp] at h
    cases part with
    | lit t =>
      obtain ⟨raw, p, hmem, hnone, heq⟩ := resolveParts_fails stepId ctx _ h
      exact ⟨raw, p, hmem, hnone, by simp [heq]⟩
    | hole raw p =>
      cases rest with
      | nil =>
        simp only [List.any_cons, List.any_nil, partFails, Bool.or_false] at h
        cases hl : lookupPath ctx p with
        | none => exact ⟨raw, p, List.mem_cons_self _ _, hl, by simp [hl]⟩
        | some v => rw [hl] at h; simp at h
      | cons p2 rest2 =>
        obtain ⟨raw', p', hmem, hnone, heq⟩ := resolveParts_fails stepId ctx _ h
        exact ⟨raw', p', hmem, hnone, by simp [heq]⟩

theorem resolveString_ok (stepId : String) (ctx : VFields) (s : String)
    (h : (parseTemplate s).any (partFails ctx) = false) :
    ∃ r, resolveString stepId ctx s = .ok r := by
  unfold resolveString
  cases hp : parseTemplate s with
  | nil => exact ⟨.vStr "", by simp [resolveParts]⟩
  | cons part rest =>
    rw [hp] at h
    cases part with
    | lit t =>
      obtain ⟨out, hout⟩ := resolveParts_ok stepId ctx _ h
      exact ⟨.vStr out, by simp [hout]⟩
    | hole raw p =>
      cases rest with
      | nil =>
        simp only [List.any_cons, List.any_nil, partFails, Bool.or_false, Option.isNone_eq_false_iff,
          Option.isSome_iff_exists] at h
        obtain ⟨v, hv⟩ := h
        exact ⟨v, by simp [hv]⟩
      | cons p2 rest2 =>
        obtain ⟨out, hout⟩ := resolveParts_ok stepId ctx _ h
        exact ⟨.vStr out, by simp [hout]⟩

mutual
theorem resolveTree_fails (stepId : String) (ctx : VFields) :
    ∀ tree : Value, treeFails ctx tree = true →
      ∃ raw p, (raw, p) ∈ treeHoles tree ∧ lookupPath ctx p = none ∧
        resolveTree stepId ctx tree = .error ⟨wrapBraces raw, stepId⟩
  | .vStr s, h => by
    unfold treeFails at h
    obtain ⟨raw, p, hmem, hnone, heq⟩ := resolveString_fails stepId ctx s h
    refine ⟨raw, p, ?_, hnone, by simpa [resolveTree] using heq⟩
    unfold treeHoles
    exact List.mem_filterMap.mpr ⟨.hole raw p, hmem, rfl⟩
  | .vArr xs, h => by
    unfold treeFails at h
    obtain ⟨raw, p, hmem, hnone, heq⟩ := resolveList_fails stepId ctx xs h
    exact ⟨raw, p, by unfold treeHoles; exact hmem, hnone, by simp [resolveTree, heq]⟩
  | .vObj fs, h => by
    unfold treeFails at h
    obtain ⟨raw, p, hmem, hnone, heq⟩ := resolveFields_fails stepId ctx fs h
    exact ⟨raw, p, by unfold treeHoles; exact hmem, hnone, by simp [resolveTree, heq]⟩

theorem resolveList_fails (stepId : String) (ctx : VFields) :
    ∀ xs : VList, listFails ctx xs = true →
      ∃ raw p, (raw, p) ∈ treeHolesList xs ∧ lookupPath ctx p = none ∧
        resolveList stepId ctx xs = .error ⟨wrapBraces raw, stepId⟩
  | .cons v rest, h => by
    unfold listFails at h
    cases htv : treeFails ctx v with
    | true =>
      obtain ⟨raw, p, hmem, hnone, heq⟩ := resolveTree_fails stepId ctx v htv
      exact ⟨raw, p, by unfold treeHolesList; exact List.mem_append_left _ hmem, hnone,
        by simp [resolveList, heq]⟩
    | false =>
      rw [htv, Bool.false_or] at h
      obtain ⟨raw, p, hmem, hnone, heq⟩ := resolveList_fails stepId ctx rest h
      obtain ⟨w, hw⟩ := resolveTree_ok stepId ctx v htv
      exact ⟨raw, p, by unfold treeHolesList; exact List.mem_append_right _ hmem, hnone,
        by simp [resolveList, hw, heq]⟩

theorem resolveFields_fails (stepId : String) (ctx : VFields) :
    ∀ fs : VFields, fieldsFails ctx fs = true →
      ∃ raw p, (raw, p) ∈ treeHolesFields fs ∧ lookupPath ctx p = none ∧
        resolveFields stepId ctx fs = .error ⟨wrapBraces raw, stepId⟩
  | .cons k v rest, h => by
    unfold fieldsFails at h
    cases htv : treeFails ctx v with
    | true =>
      obtain ⟨raw, p, hmem, hnone, heq⟩ := resolveTree_fails stepId ctx v htv
      exact ⟨raw, p, by unfold treeHolesFields; exact List.mem_append_left _ hmem, hnone,
        by simp [resolveFields, heq]⟩
    | false =>
      rw [htv, Bool.false_or] at h
      obtain ⟨raw, p, hmem, hnone, heq⟩ := resolveFields_fails stepId ctx rest h
      obtain ⟨w, hw⟩ := resolveTree_ok stepId ctx v htv
      exact ⟨raw, p, by unfold treeHolesFields; exact List.mem_append_right _ hmem, hnone,
        by simp [resolveFields, hw, heq]⟩

theorem resolveTree_ok (stepId : String) (ctx : VFields) :
    ∀ tree : Value, treeFails ctx tree = false →
      ∃ r, resolveTree stepId ctx tree = .ok r
  | .vNull, _ => ⟨.vNull, rfl⟩
  | .vBool b, _ => ⟨.vBool b, rfl⟩
  | .vNum n, _ => ⟨.vNum n, rfl⟩
  | .vStr s, h => by
    unfold treeFails at h
    obtain ⟨r, hr⟩ := resolveString_ok stepId ctx s h
    exact ⟨r, by simpa [resolveTree] using hr⟩
  | .vArr xs, h => by
    unfold treeFails at h
    obtain ⟨ys, hys⟩ := resolveList_ok stepId ctx xs h
    exact ⟨.vArr ys, by simp [resolveTree, hys]⟩
  | .vObj fs, h => by
    unfold treeFails at h
    obtain ⟨gs, hgs⟩ := resolveFields_ok stepId ctx fs h
    exact ⟨.vObj gs, by simp [resolveTree, hgs]⟩

theorem resolveList_ok (stepId : String) (ctx : VFields) :
    ∀ xs : VList, listFails ctx xs = false →
      ∃ ys, resolveList stepId ctx xs = .ok ys
  | .nil, _ => ⟨.nil, rfl⟩
  | .cons v rest, h => by
    unfold listFails at h
    rw [Bool.or_eq_false_iff] at h
    obtain ⟨w, hw⟩ := resolveTree_ok stepId ctx v h.1
    obtain ⟨ws, hws⟩ := resolveList_ok stepId ctx rest h.2
    exact ⟨.cons w ws, by simp [resolveList, hw, hws]⟩

theorem resolveFields_ok (stepId : String) (ctx : VFields) :
    ∀ fs : VFields, fieldsFails ctx fs = false →
      ∃ gs, resolveFields stepId ctx fs = .ok gs
  | .nil, _ => ⟨.nil, rfl⟩
  | .cons k v rest, h => by
    unfold fieldsFails at h
    rw [Bool.or_eq_false_iff] at h
    obtain ⟨w, hw⟩ := resolveTree_ok stepId ctx v h.1
    obtain ⟨ws, hws⟩ := resolveFields_ok stepId ctx rest h.2
    exact ⟨.cons k w ws, by simp [resolveFields, hw, hws]⟩
end

/-- C3: resolve(inputTree, context) has two substitution modes: a string
that is exactly one placeholder resolves to the referenced value with its
type preserved, while a placeholder embedded in surrounding text resolves
by stringifying the value and splicing it into the string. -/
theorem resolve_substitution_modes (stepId : String) (ctx : VFields) (v : Value) :
    (∀ s raw p, parseTemplate s = [.hole raw p] → lookupPath ctx p = some v →
      resolveString stepId ctx s = .ok v) ∧
    (∀ s raw p t, parseTemplate s = [.hole raw p, .lit t] → lookupPath ctx p = some v →
      resolveString stepId ctx s = .ok (.vStr (stringify v ++ t))) := by
  constructor
  · intro s raw p hparse hlook
    unfold resolveString
    rw [hparse]
    simp [hlook]
  · intro s raw p t hparse hlook
    unfold resolveString
    rw [hparse]
    simp [resolveParts, hlook, append_empty_str]

/-- Witness for C3 at the specification example: against
step1.output.field = 5, the exact placeholder yields the number 5 and the
embedded placeholder followed by x yields the string 5x. -/
theorem resolve_substitution_modes_witness :
    resolveString "step7" exampleContext (wrapBraces "step1.output.field") = .ok (.vNum 5) ∧
    resolveString "step7" exampleContext (wrapBraces "step1.output.field" ++ "x") =
      .ok (.vStr "5x") := by
  have h := resolve_substitution_modes "step7" exampleContext (.vNum 5)
  exact ⟨h.1 _ "step1.output.field" _ rfl rfl, h.2 _ "step1.output.field" _ "x" rfl rfl⟩

/-- C4: if any placeholder of the input tree has a path segment that does
not exist on the context, resolution raises a ResolutionError naming the
exact placeholder expression and the referencing step id; otherwise
resolution succeeds — it never silently substitutes a missing value. -/
theorem resolution_error_identifies_placeholder (stepId : String) (ctx : VFields) (tree : Value) :
    (treeFails ctx tree = true →
      ∃ raw p, (raw, p) ∈ treeHoles tree ∧ lookupPath ctx p = none ∧
        resolveTree stepId ctx tree = .error ⟨wrapBraces raw, stepId⟩) ∧
    (treeFails ctx tree = false → ∃ r, resolveTree stepId ctx tree = .ok r) :=
  ⟨resolveTree_fails stepId ctx tree, resolveTree_ok stepId ctx tree⟩

/-- Witness for C4: resolving a placeholder for the missing path
step1.missing against the example context yields a ResolutionError naming
the placeholder and step id step9. -/
theorem resolution_error_identifies_placeholder_witness :
    ∃ raw p, (raw, p) ∈ treeHoles (.vStr (wrapBraces "step1.missing")) ∧
      lookupPath exampleContext p = none ∧
      resolveTree "step9" exampleContext (.vStr (wrapBraces "step1.missing")) =
        .error ⟨wrapBraces raw, "step9"⟩ :=
  (resolution_error_identifies_placeholder "step9" exampleContext
    (.vStr (wrapBraces "step1.missing"))).1 rfl

theorem findWave_append_some {l m : List (String × Nat)} {k : String} {v : Nat}
    (h : findWave l k = some v) : findWave (l ++ m) k = some v := by
  induction l with
  | nil => simp [findWave] at h
  | cons e rest ih =>
    rw [List.cons_append]
    unfold findWave at h ⊢
    by_cases he : e.1 = k
    · simpa [he] using h
    · rw [if_neg he] at h ⊢
      exact ih h

theorem findWave_append_none {l m : List (String × Nat)} {k : String}
    (h : findWave l k = none) : findWave (l ++ m) k = findWave m k := by
  induction l with
  | nil => simp
  | cons e rest ih =>
    rw [List.cons_append]
    unfold findWave at h
    conv_lhs => unfold findWave
    by_cases he : e.1 = k
    · simp [he] at h
    · rw [if_neg he] at h ⊢
      exact ih h

theorem findWave_mem {l : List (String × Nat)} {k : String} {v : Nat}
    (h : findWave l k = some v) : (k, v) ∈ l := by
  induction l with
  | nil => simp [findWave] at h
  | cons e rest ih =>
    unfold findWave at h
    by_cases he : e.1 = k
    · rw [if_pos he] at h
      injection h with h2
      subst h2
      subst he
      exact List.mem_cons_self _ _
    · rw [if_neg he] at h
      exact List.mem_cons_of_mem _ (ih h)

theorem findWave_eq_none {l : List (String × Nat)} {k : String}
    (h : ∀ e ∈ l, e.1 ≠ k) : findWave l k = none := by
  induction l with
  | nil => rfl
  | cons e rest ih =>
    unfold findWave
    rw [if_neg (h e (List.mem_cons_self _ _))]
    exact ih fun e' he' => h e' (List.mem_cons_of_mem _ he')

theorem mem_keys_of_findWave {l : List (String × Nat)} {k : String}
    (h : k ∈ l.map Prod.fst) : ∃ v, findWave l k = some v := by
  induction l with
  | nil => simp at h
  | cons e rest ih =>
    unfold findWave
    by_cases he : e.1 = k
    · exact ⟨e.2, by rw [if_pos he]⟩
    · rw [if_neg he]
      rcases List.mem_map.mp h with ⟨e', he', hk⟩
      rcases List.mem_cons.mp he' with h1 | h1
      · exact absurd (h1 ▸ hk) he
      · exact ih (List.mem_map.mpr ⟨e', h1, hk⟩)

theorem depWaves_extend {assigned new : List (String × Nat)} {ds : List String} {ws : List Nat}
    (h : depWaves assigned ds = some ws) : depWaves (assigned ++ new) ds = some ws := by
  induction ds generalizing ws with
  | nil => simpa [depWaves] using h
  | cons d rest ih =>
    unfold depWaves at h ⊢
    cases hf : findWave assigned d with
    | none => rw [hf] at h; cases hr : depWaves assigned rest <;> simp [hr] at h
    | some w =>
      rw [hf] at h
      cases hr : depWaves assigned rest with
      | none => rw [hr] at h; simp at h
      | some ws' =>
        rw [hr] at h
        rw [findWave_append_some hf, ih hr]
        exact h

theorem waveFormula_extend {assigned new : List (String × Nat)} {ds : List String} {w : Nat}
    (h : waveFormula assigned ds = some w) : waveFormula (assigned ++ new) ds = some w := by
  unfold waveFormula at h ⊢
  cases hd : depWaves assigned ds with
  | none => rw [hd] at h; simp at h
  | some ws => rw [hd] at h; rw [depWaves_extend hd]; exact h

theorem depWaves_mem {assigned : List (String × Nat)} {ds : List String} {ws : List Nat}
    (h : depWaves assigned ds = some ws) {d : String} (hd : d ∈ ds) :
    ∃ kd, findWave assigned d = some kd ∧ kd ∈ ws := by
  induction ds generalizing ws with
  | nil => simp at hd
  | cons d0 rest ih =>
    unfold depWaves at h
    cases hf : findWave assigned d0 with
    | none => rw [hf] at h; cases hr : depWaves assigned rest <;> simp [hr] at h
    | some w0 =>
      rw [hf] at h
      cases hr : depWaves assigned rest with
      | none => rw [hr] at h; simp at h
      | some ws' =>
        rw [hr] at h
        cases h
        rcases List.mem_cons.mp hd with h1 | h1
        · exact ⟨w0, h1 ▸ hf, List.mem_cons_self _ _⟩
        · obtain ⟨kd, hkd, hmem⟩ := ih hr h1
          exact ⟨kd, hkd, List.mem_cons_of_mem _ hmem⟩

theorem le_foldr_max {ws : List Nat} {x : Nat} (h : x ∈ ws) : x ≤ ws.foldr max 0 := by
  induction ws with
  | nil => simp at h
  | cons w rest ih =>
    rcases List.mem_cons.mp h with h1 | h1
    · subst h1; exact Nat.le_max_left _ _
    · exact Nat.le_trans (ih h1) (Nat.le_max_right _ _)

theorem foldr_max_mem {ws : List Nat} (h : ws ≠ []) : ws.foldr max 0 ∈ ws := by
  induction ws with
  | nil => exact absurd rfl h
  | cons w rest ih =>
    cases rest with
    | nil => simp
    | cons w2 rest2 =>
      show max w ((w2 :: rest2).foldr max 0) ∈ _
      rcases max_choice w ((w2 :: rest2).foldr max 0) with hm | hm
      · rw [hm]; exact List.mem_cons_self _ _
      · rw [hm]; exact List.mem_cons_of_mem _ (ih (by simp))

theorem depsOf_mem_steps {steps : List Step} {s : Step} {d : String}
    (h : d ∈ depsOf steps s) : ∃ t ∈ steps, t.id = d := by
  unfold depsOf at h
  rcases List.mem_map.mp h with ⟨t, ht, hid⟩
  exact ⟨t, List.mem_of_mem_filter ht, hid⟩

theorem assignReady_mem {steps : List Step} {assigned : List (String × Nat)}
    {id : String} {wv : Nat} (h : (id, wv) ∈ assignReady steps assigned) :
    ∃ s ∈ steps, s.id = id ∧ isAssigned assigned s.id = false ∧
      waveFormula assigned (depsOf steps s) = some wv := by
  unfold assignReady at h
  rcases List.mem_filterMap.mp h with ⟨s, hs, hf⟩
  by_cases ha : isAssigned assigned s.id
  · rw [if_pos ha] at hf; cases hf
  · rw [if_neg ha] at hf
    cases hw : waveFormula assigned (depsOf steps s) with
    | none => rw [hw] at hf; cases hf
    | some w =>
      rw [hw] at hf
      cases hf
      exact ⟨s, hs, rfl, Bool.not_eq_true _ ▸ by simpa using ha, hw⟩

theorem assignReady_mem_of_ready {steps : List Step} {assigned : List (String × Nat)}
    {s : Step} (hs : s ∈ steps) (ha : isAssigned assigned s.id = false)
    {wv : Nat} (hw : waveFormula assigned (depsOf steps s) = some wv) :
    (s.id, wv) ∈ assignReady steps assigned := by
  unfold assignReady
  exact List.mem_filterMap.mpr ⟨s, hs, by rw [if_neg (by simp [ha]), hw]⟩

theorem assignReady_keys_sub {steps : List Step} {assigned : List (String × Nat)} :
    ∀ k ∈ (assignReady steps assigned).map Prod.fst, k ∈ steps.map Step.id := by
  intro k hk
  rcases List.mem_map.mp hk with ⟨⟨id, wv⟩, hmem, hfst⟩
  obtain ⟨s, hs, hid, _, _⟩ := assignReady_mem hmem
  exact List.mem_map.mpr ⟨s, hs, by rw [hid]; exact hfst⟩

theorem filterMap_keys_nodup (f : Step → Option (String × Nat))
    (hf : ∀ s p, f s = some p → p.1 = s.id) :
    ∀ l : List Step, (l.map Step.id).Nodup → ((l.filterMap f).map Prod.fst).Nodup := by
  intro l
  induction l with
  | nil => intro _; simp
  | cons s rest ih =>
    intro hn
    rw [List.map_cons, List.nodup_cons] at hn
    rw [List.filterMap_cons]
    cases hfs : f s with
    | none => exact ih hn.2
    | some p =>
      rw [List.map_cons, List.nodup_cons]
      refine ⟨fun hmem => ?_, ih hn.2⟩
      rcases List.mem_map.mp hmem with ⟨p', hp', hfst⟩
      rcases List.mem_filterMap.mp hp' with ⟨s', hs', hfs'⟩
      exact hn.1 (List.mem_map.mpr ⟨s', hs', by rw [← hf s' p' hfs', hfst, hf s p hfs]⟩)

theorem assignReady_keys_nodup {steps : List Step} {assigned : List (String × Nat)}
    (hn : (steps.map Step.id).Nodup) :
    ((assignReady steps assigned).map Prod.fst).Nodup := by
  unfold assignReady
  refine filterMap_keys_nodup _ (fun s p hp => ?_) steps hn
  by_cases ha : isAssigned assigned s.id
  · rw [if_pos ha] at hp; cases hp
  · rw [if_neg ha] at hp
    cases hw : waveFormula assigned (depsOf steps s) with
    | none => rw [hw] at hp; cases hp
    | some w => rw [hw] at hp; cases hp; rfl

theorem waveInvariant_preserved {steps : List Step} {assigned : List (String × Nat)}
    (hn : (steps.map Step.id).Nodup) (hi : WaveInvariant steps assigned) :
    WaveInvariant steps (assigned ++ assignReady steps assigned) := by
  obtain ⟨hnd, hform⟩ := hi
  constructor
  · rw [List.map_append]
    rw [List.nodup_append]
    refine ⟨hnd, assignReady_keys_nodup hn, ?_⟩
    intro k hk1 hk2
    obtain ⟨v, hv⟩ := mem_keys_of_findWave hk1
    rcases List.mem_map.mp hk2 with ⟨⟨id, wv⟩, hmem, hfst⟩
    obtain ⟨s, _, hid, hun, _⟩ := assignReady_mem hmem
    rw [hid] at hun
    cases hfst
    rw [isAssigned, hv] at hun
    simp at hun
  · intro e he
    rcases List.mem_append.mp he with h1 | h1
    · obtain ⟨s, hs, hid, hform'⟩ := hform e h1
      exact ⟨s, hs, hid, waveFormula_extend hform'⟩
    · rcases e with ⟨id0, wv0⟩
      obtain ⟨s, hs, hid, _, hform'⟩ := assignReady_mem h1
      exact ⟨s, hs, hid, waveFormula_extend hform'⟩

theorem assignLoop_sound {steps : List Step} (hn : (steps.map Step.id).Nodup) :
    ∀ fuel assigned w, WaveInvariant steps assigned →
      assignLoop steps fuel assigned = some w →
      WaveInvariant steps w ∧ ∀ s ∈ steps, isAssigned w s.id = true := by
  intro fuel
  induction fuel with
  | zero =>
    intro assigned w hi h
    unfold assignLoop at h
    by_cases hall : steps.all fun s => isAssigned assigned s.id
    · rw [if_pos hall] at h
      cases h
      exact ⟨hi, fun s hs => List.all_eq_true.mp hall s hs⟩
    · rw [if_neg hall] at h
      cases h
  | succ fuel ih =>
    intro assigned w hi h
    unfold assignLoop at h
    by_cases hall : steps.all fun s => isAssigned assigned s.id
    · rw [if_pos hall] at h
      cases h
      exact ⟨hi, fun s hs => List.all_eq_true.mp hall s hs⟩
    · rw [if_neg hall] at h
      by_cases hre : (assignReady steps assigned).isEmpty
      · rw [if_pos hre] at h
        cases h
      · rw [if_neg hre] at h
        exact ih _ w (waveInvariant_preserved hn hi) h

theorem depWaves_total {assigned : List (String × Nat)} :
    ∀ ds : List String, (∀ d ∈ ds, ∃ kd, findWave assigned d = some kd) →
      ∃ ws, depWaves assigned ds = some ws := by
  intro ds h
  induction ds with
  | nil => exact ⟨[], rfl⟩
  | cons d rest ih =>
    obtain ⟨kd, hkd⟩ := h d (List.mem_cons_self _ _)
    obtain ⟨ws, hws⟩ := ih fun d' hd' => h d' (List.mem_cons_of_mem _ hd')
    exact ⟨kd :: ws, by unfold depWaves; rw [hkd, hws]⟩

theorem assignReady_progress {steps : List Step} {assigned : List (String × Nat)}
    (hac : Acyclic steps)
    (hx : ∃ s ∈ steps, isAssigned assigned s.id = false) :
    assignReady steps assigned ≠ [] := by
  obtain ⟨r, hr⟩ := hac
  obtain ⟨s0, hs0, hs0u⟩ := hx
  have hs0U : s0 ∈ steps.filter fun s => !(isAssigned assigned s.id) :=
    List.mem_filter.mpr ⟨hs0, by rw [hs0u]; rfl⟩
  have hUne : (steps.filter fun s => !(isAssigned assigned s.id)) ≠ [] :=
    List.ne_nil_of_mem hs0U
  obtain ⟨u, hu⟩ : ∃ u, u ∈ List.argmin (fun s : Step => r s.id)
      (steps.filter fun s => !(isAssigned assigned s.id)) := by
    cases har : List.argmin (fun s : Step => r s.id)
        (steps.filter fun s => !(isAssigned assigned s.id)) with
    | none => exact absurd (List.argmin_eq_none.mp har) hUne
    | some u => exact ⟨u, rfl⟩
  have huU := List.argmin_mem hu
  have huSteps : u ∈ steps := List.mem_of_mem_filter huU
  have huUn : isAssigned assigned u.id = false := by
    have h2 := (List.mem_filter.mp huU).2
    simpa using h2
  have hdeps : ∀ d ∈ depsOf steps u, ∃ kd, findWave assigned d = some kd := by
    intro d hd
    obtain ⟨t, ht, htid⟩ := depsOf_mem_steps hd
    by_cases hta : isAssigned assigned t.id = true
    · rw [← htid]
      exact Option.isSome_iff_exists.mp hta
    · have htU : t ∈ steps.filter fun s => !(isAssigned assigned s.id) :=
        List.mem_filter.mpr ⟨ht, by simpa using hta⟩
      have hle : r u.id ≤ r t.id := List.le_of_mem_argmin (f := fun s : Step => r s.id) htU hu
      have hlt : r d < r u.id := hr u huSteps d hd
      rw [htid] at hle
      omega
  obtain ⟨ws, hws⟩ := depWaves_total (depsOf steps u) hdeps
  have hwf : waveFormula assigned (depsOf steps u) = some (ws.foldr max 0 + 1) := by
    unfold waveFormula
    rw [hws]
  exact List.ne_nil_of_mem (assignReady_mem_of_ready huSteps huUn hwf)

theorem length_filter_mono {α : Type} (l : List α) (P Q : α → Bool)
    (h : ∀ a ∈ l, Q a = true → P a = true) :
    (l.filter Q).length ≤ (l.filter P).length := by
  induction l with
  | nil => simp
  | cons b rest ih =>
    have ih' := ih fun a ha => h a (List.mem_cons_of_mem _ ha)
    cases hQ : Q b with
    | true =>
      rw [List.filter_cons_of_pos (by exact hQ),
        List.filter_cons_of_pos (by exact h b (List.mem_cons_self _ _) hQ)]
      simpa using ih'
    | false =>
      rw [List.filter_cons_of_neg (by simp [hQ])]
      cases hP : P b with
      | true =>
        rw [List.filter_cons_of_pos (by exact hP)]
        exact Nat.le_succ_of_le ih'
      | false =>
        rw [List.filter_cons_of_neg (by simp [hP])]
        exact ih'

theorem length_filter_lt {α : Type} (l : List α) (P Q : α → Bool)
    (himp : ∀ a ∈ l, Q a = true → P a = true)
    (a0 : α) (ha0 : a0 ∈ l) (hP : P a0 = true) (hQ : Q a0 = false) :
    (l.filter Q).length < (l.filter P).length := by
  induction l with
  | nil => simp at ha0
  | cons b rest ih =>
    have himp' : ∀ a ∈ rest, Q a = true → P a = true :=
      fun a ha => himp a (List.mem_cons_of_mem _ ha)
    rcases List.mem_cons.mp ha0 with h1 | h1
    · subst h1
      rw [List.filter_cons_of_neg (by simp [hQ]), List.filter_cons_of_pos (by exact hP)]
      have := length_filter_mono rest P Q himp'
      rw [List.length_cons]
      omega
    · cases hQb : Q b with
      | true =>
        rw [List.filter_cons_of_pos (by exact hQb),
          List.filter_cons_of_pos (by exact himp b (List.mem_cons_self _ _) hQb)]
        rw [List.length_cons, List.length_cons]
        exact Nat.succ_lt_succ (ih himp' h1)
      | false =>
        rw [List.filter_cons_of_neg (by simp [hQb])]
        cases hPb : P b with
        | true =>
          rw [List.filter_cons_of_pos (by exact hPb)]
          rw [List.length_cons]
          have := ih himp' h1
          omega
        | false =>
          rw [List.filter_cons_of_neg (by simp [hPb])]
          exact ih himp' h1

theorem isAssigned_extend {assigned new : List (String × Nat)} {k : String}
    (h : isAssigned assigned k = true) : isAssigned (assigned ++ new) k = true := by
  unfold isAssigned at h ⊢
  obtain ⟨v, hv⟩ := Option.isSome_iff_exists.mp h
  rw [findWave_append_some hv]
  rfl

theorem assignLoop_total {steps : List Step}
    (hac : Acyclic steps) :
    ∀ fuel assigned,
      (steps.filter fun s => !(isAssigned assigned s.id)).length ≤ fuel →
      ∃ w, assignLoop steps fuel assigned = some w := by
  intro fuel
  induction fuel with
  | zero =>
    intro assigned hlen
    have hall : ∀ s ∈ steps, isAssigned assigned s.id = true := by
      intro s hs
      by_contra hne
      have hmem : s ∈ steps.filter fun s => !(isAssigned assigned s.id) :=
        List.mem_filter.mpr ⟨hs, by simpa using hne⟩
      have := List.length_pos.mpr (List.ne_nil_of_mem hmem)
      omega
    unfold assignLoop
    rw [if_pos (List.all_eq_true.mpr hall)]
    exact ⟨assigned, rfl⟩
  | succ fuel ih =>
    intro assigned hlen
    unfold assignLoop
    by_cases hall : steps.all fun s => isAssigned assigned s.id
    · rw [if_pos hall]
      exact ⟨assigned, rfl⟩
    · rw [if_neg hall]
      have hx : ∃ s ∈ steps, isAssigned assigned s.id = false := by
        by_contra hno
        push_neg at hno
        refine hall (List.all_eq_true.mpr fun s hs => ?_)
        cases hb : isAssigned assigned s.id with
        | true => rfl
        | false => exact absurd hb (hno s hs)
      have hne := assignReady_progress hac hx
      rw [if_neg (by simpa [List.isEmpty_iff] using hne)]
      have himp : ∀ a ∈ steps,
          (!(isAssigned (assigned ++ assignReady steps assigned) a.id)) = true →
          (!(isAssigned assigned a.id)) = true := by
        intro a _ hQ
        simp only [Bool.not_eq_true'] at hQ ⊢
        cases hb : isAssigned assigned a.id with
        | false => rfl
        | true => rw [isAssigned_extend hb] at hQ; simp at hQ
      obtain ⟨e, he⟩ := List.exists_mem_of_ne_nil _ hne
      rcases e with ⟨id0, wv0⟩
      obtain ⟨s2, hs2, hs2id, hs2un, _⟩ := assignReady_mem he
      have hP : (!(isAssigned assigned s2.id)) = true := by simp [hs2un]
      have hQ : (!(isAssigned (assigned ++ assignReady steps assigned) s2.id)) = false := by
        have hnone : findWave assigned s2.id = none := by
          unfold isAssigned at hs2un
          exact Option.not_isSome_iff_eq_none.mp (by simp [hs2un])
        have hkey : s2.id ∈ (assignReady steps assigned).map Prod.fst :=
          List.mem_map.mpr ⟨(id0, wv0), he, by rw [hs2id]⟩
        obtain ⟨v, hv⟩ := mem_keys_of_findWave hkey
        have hfw : findWave (assigned ++ assignReady steps assigned) s2.id = some v := by
          rw [findWave_append_none hnone]
          exact hv
        simp [isAssigned, hfw]
      have hdec := length_filter_lt steps _ _ himp s2 hs2 hP hQ
      refine ih _ ?_
      omega

theorem assignWaves_total {steps : List Step} (hac : Acyclic steps) :
    ∃ w, assignWaves steps = some w := by
  unfold assignWaves
  exact assignLoop_total hac steps.length []
    (le_trans (List.length_filter_le _ _) (Nat.le_refl _))

/-- C1: for every acyclic workflow step list (with the unique-id
invariant), the wave assignment succeeds and places every step in exactly
one wave, assigns wave 1 to each step with no dependencies, assigns every
other step 1 + the maximum wave index of its dependencies, and therefore
gives each step a wave index strictly greater than that of every one of
its dependencies. -/
theorem wave_assignment_correct (steps : List Step)
    (hn : (steps.map Step.id).Nodup) (hac : Acyclic steps) :
    ∃ w, assignWaves steps = some w ∧
      (w.map Prod.fst).Nodup ∧
      (∀ e ∈ w, ∃ s ∈ steps, s.id = e.1) ∧
      (∀ s ∈ steps, ∃ k, findWave w s.id = some k) ∧
      (∀ s ∈ steps, depsOf steps s = [] → findWave w s.id = some 1) ∧
      (∀ s ∈ steps, ∀ k, findWave w s.id = some k →
        ∃ ws, depWaves w (depsOf steps s) = some ws ∧ k = ws.foldr max 0 + 1 ∧
          (depsOf steps s ≠ [] → ws.foldr max 0 ∈ ws ∧ ∀ x ∈ ws, x ≤ ws.foldr max 0)) ∧
      (∀ s ∈ steps, ∀ k, findWave w s.id = some k →
        ∀ d ∈ depsOf steps s, ∃ kd, findWave w d = some kd ∧ kd < k) := by
  obtain ⟨w, hw⟩ := assignWaves_total hac
  have hinv0 : WaveInvariant steps [] := ⟨List.nodup_nil, by intro e he; simp at he⟩
  obtain ⟨⟨hnd, hform⟩, hcov⟩ := assignLoop_sound hn steps.length [] w hinv0 hw
  have hformula : ∀ s ∈ steps, ∀ k, findWave w s.id = some k →
      ∃ ws, depWaves w (depsOf steps s) = some ws ∧ k = ws.foldr max 0 + 1 := by
    intro s hs k hk
    obtain ⟨s', hs', hid, hf⟩ := hform (s.id, k) (findWave_mem hk)
    have : s' = s := List.inj_on_of_nodup_map hn hs' hs hid
    subst this
    unfold waveFormula at hf
    cases hd : depWaves w (depsOf steps s') with
    | none => rw [hd] at hf; simp at hf
    | some ws =>
      rw [hd] at hf
      injection hf with hf2
      exact ⟨ws, rfl, hf2.symm⟩
  refine ⟨w, hw, hnd, ?_, ?_, ?_, ?_, ?_⟩
  · intro e he
    obtain ⟨s, hs, hid, _⟩ := hform e he
    exact ⟨s, hs, hid⟩
  · intro s hs
    exact Option.isSome_iff_exists.mp (hcov s hs)
  · intro s hs hds
    obtain ⟨k, hk⟩ := Option.isSome_iff_exists.mp (hcov s hs)
    obtain ⟨ws, hws, hval⟩ := hformula s hs k hk
    rw [hds] at hws
    have hwsnil : ws = [] := by
      unfold depWaves at hws
      injection hws with h2
      exact h2.symm
    subst hwsnil
    rw [hk, hval]
    rfl
  · intro s hs k hk
    obtain ⟨ws, hws, hval⟩ := hformula s hs k hk
    refine ⟨ws, hws, hval, fun hne => ?_⟩
    have hwsne : ws ≠ [] := by
      cases hdd : depsOf steps s with
      | nil => exact absurd hdd hne
      | cons d ds' =>
        rw [hdd] at hws
        obtain ⟨kd, _, hkdmem⟩ := depWaves_mem hws (List.mem_cons_self d ds')
        exact List.ne_nil_of_mem hkdmem
    exact ⟨foldr_max_mem hwsne, fun x hx => le_foldr_max hx⟩
  · intro s hs k hk d hd
    obtain ⟨ws, hws, hval⟩ := hformula s hs k hk
    obtain ⟨kd, hkd, hkdmem⟩ := depWaves_mem hws hd
    exact ⟨kd, hkd, by have := le_foldr_max hkdmem; omega⟩

/-- Witness for C1 at the complex-dependencies test workflow of
scripts/test-parallel-execution.ts. -/
theorem wave_assignment_correct_witness :
    ∃ w, assignWaves complexWorkflowSteps = some w ∧
      (w.map Prod.fst).Nodup ∧
      (∀ e ∈ w, ∃ s ∈ complexWorkflowSteps, s.id = e.1) ∧
      (∀ s ∈ complexWorkflowSteps, ∃ k, findWave w s.id = some k) ∧
      (∀ s ∈ complexWorkflowSteps, depsOf complexWorkflowSteps s = [] →
        findWave w s.id = some 1) ∧
      (∀ s ∈ complexWorkflowSteps, ∀ k, findWave w s.id = some k →
        ∃ ws, depWaves w (depsOf complexWorkflowSteps s) = some ws ∧
          k = ws.foldr max 0 + 1 ∧
          (depsOf complexWorkflowSteps s ≠ [] →
            ws.foldr max 0 ∈ ws ∧ ∀ x ∈ ws, x ≤ ws.foldr max 0)) ∧
      (∀ s ∈ complexWorkflowSteps, ∀ k, findWave w s.id = some k →
        ∀ d ∈ depsOf complexWorkflowSteps s, ∃ kd, findWave w d = some kd ∧ kd < k) :=
  wave_assignment_correct complexWorkflowSteps (by decide) ⟨complexRank, by decide⟩

theorem depWaves_none {assigned : List (String × Nat)} {ds : List String} {d : String}
    (hd : d ∈ ds) (h : findWave assigned d = none) : depWaves assigned ds = none := by
  induction ds with
  | nil => simp at hd
  | cons d0 rest ih =>
    unfold depWaves
    rcases List.mem_cons.mp hd with h1 | h1
    · rw [← h1, h]
    · rw [ih h1]
      cases findWave assigned d0 <;> rfl

theorem assignLoop_cycle {steps : List Step} {A B : Step}
    (hn : (steps.map Step.id).Nodup)
    (hA : A ∈ steps) (hB : B ∈ steps)
    (hdAB : B.id ∈ depsOf steps A) (hdBA : A.id ∈ depsOf steps B) :
    ∀ fuel assigned, findWave assigned A.id = none → findWave assigned B.id = none →
      assignLoop steps fuel assigned = none := by
  have hstay : ∀ assigned, findWave assigned A.id = none → findWave assigned B.id = none →
      ∀ C : Step, C ∈ steps → (C.id = A.id ∨ C.id = B.id) →
      B.id ∈ depsOf steps C ∨ A.id ∈ depsOf steps C →
      findWave (assigned ++ assignReady steps assigned) C.id = none := by
    intro assigned hfA hfB C hC hCid hdep
    have hfC : findWave assigned C.id = none := by
      rcases hCid with h1 | h1
      · rw [h1]; exact hfA
      · rw [h1]; exact hfB
    rw [findWave_append_none hfC]
    apply findWave_eq_none
    intro e he hk
    rcases e with ⟨id0, wv0⟩
    obtain ⟨s, hs, hsid, _, hsform⟩ := assignReady_mem he
    have hsC : s = C := List.inj_on_of_nodup_map hn hs hC (by rw [hsid]; exact hk)
    subst hsC
    rcases hdep with hd | hd
    · have : depWaves assigned (depsOf steps s) = none := depWaves_none hd hfB
      unfold waveFormula at hsform
      rw [this] at hsform
      cases hsform
    · have : depWaves assigned (depsOf steps s) = none := depWaves_none hd hfA
      unfold waveFormula at hsform
      rw [this] at hsform
      cases hsform
  intro fuel
  induction fuel with
  | zero =>
    intro assigned hfA hfB
    unfold assignLoop
    rw [if_neg fun hall => by
      have h2 := List.all_eq_true.mp hall A hA
      rw [isAssigned, hfA] at h2
      simp at h2]
  | succ fuel ih =>
    intro assigned hfA hfB
    unfold assignLoop
    rw [if_neg fun hall => by
      have h2 := List.all_eq_true.mp hall A hA
      rw [isAssigned, hfA] at h2
      simp at h2]
    by_cases hre : (assignReady steps assigned).isEmpty
    · rw [if_pos hre]
    · rw [if_neg hre]
      exact ih _
        (hstay assigned hfA hfB A hA (Or.inl rfl) (Or.inl hdAB))
        (hstay assigned hfA hfB B hB (Or.inr rfl) (Or.inr hdBA))

theorem assignWaves_cycle {steps : List Step} {A B : Step}
    (hn : (steps.map Step.id).Nodup)
    (hA : A ∈ steps) (hB : B ∈ steps)
    (hdAB : B.id ∈ depsOf steps A) (hdBA : A.id ∈ depsOf steps B) :
    assignWaves steps = none :=
  assignLoop_cycle hn hA hB hdAB hdBA steps.length [] rfl rfl

/-- C2: whenever step A's inputs reference step B's output binding and
step B's inputs reference step A's output binding, running the workflow
yields a ConfigurationError raised before any step is invoked, and no
step executes. -/
theorem cycle_configuration_error (steps : List Step)
    (cap : String → Value → Except String Value) (A B : Step)
    (hn : (steps.map Step.id).Nodup)
    (hA : A ∈ steps) (hB : B ∈ steps)
    (hAB : B.outputAs ∈ rootsOfValue A.inputs)
    (hBA : A.outputAs ∈ rootsOfValue B.inputs) :
    runWorkflow cap steps = .configError cycleMessage ∧
      (runWorkflow cap steps).invokedSteps = [] := by
  have hdAB : B.id ∈ depsOf steps A := by
    unfold depsOf
    refine List.mem_map.mpr ⟨B, List.mem_filter.mpr ⟨hB, ?_⟩, rfl⟩
    simpa using hAB
  have hdBA : A.id ∈ depsOf steps B := by
    unfold depsOf
    refine List.mem_map.mpr ⟨A, List.mem_filter.mpr ⟨hA, ?_⟩, rfl⟩
    simpa using hBA
  have hcyc := assignWaves_cycle hn hA hB hdAB hdBA
  constructor
  · unfold runWorkflow
    rw [hcyc]
  · unfold runWorkflow
    rw [hcyc]
    rfl

/-- Witness for C2 at a concrete two-step cyclic workflow. -/
theorem cycle_configuration_error_witness :
    runWorkflow trivialCap cyclicSteps = .configError cycleMessage ∧
      (runWorkflow trivialCap cyclicSteps).invokedSteps = [] :=
  cycle_configuration_error cyclicSteps trivialCap
    ⟨"stepA", "m.alpha", .vObj (.cons "x" (.vStr (wrapBraces "outB")) .nil), "outA"⟩
    ⟨"stepB", "m.beta", .vObj (.cons "y" (.vStr (wrapBraces "outA")) .nil), "outB"⟩
    (by decide) (by decide) (by decide) (by decide) (by decide)

theorem execStep_spec (cap : String → Value → Except String Value) (st : ExecState) (s : Step) :
    ∃ o invAdd,
      (execStep cap st s).results = st.results ++ [(s.id, o)] ∧
      (execStep cap st s).invoked = st.invoked ++ invAdd ∧
      (∀ x ∈ invAdd, x = s.id) ∧
      o ≠ .skipped ∧
      ((execStep cap st s).anyFailed = false →
        st.anyFailed = false ∧ ∀ e, o ≠ .failed e) := by
  cases hres : resolveTree s.id st.ctx s.inputs with
  | error e =>
    refine ⟨.failed (resolutionMessage e), [], by simp [execStep, hres], by simp [execStep, hres],
      by simp, by simp, ?_⟩
    intro h
    simp [execStep, hres] at h
  | ok inputs =>
    cases hcap : cap s.capabilityPath inputs with
    | error m =>
      refine ⟨.failed m, [s.id], by simp [execStep, hres, hcap], by simp [execStep, hres, hcap],
        by simp, by simp, ?_⟩
      intro h
      simp [execStep, hres, hcap] at h
    | ok out =>
      refine ⟨.success out, [s.id], by simp [execStep, hres, hcap], by simp [execStep, hres, hcap],
        by simp, by simp, ?_⟩
      intro h
      simp [execStep, hres, hcap] at h
      exact ⟨h, by simp⟩

theorem execWave_spec (cap : String → Value → Except String Value) :
    ∀ (wave : List Step) (st : ExecState), ∃ adds invAdds,
      (execWave cap st wave).results = st.results ++ adds ∧
      (execWave cap st wave).invoked = st.invoked ++ invAdds ∧
      adds.map Prod.fst = wave.map Step.id ∧
      (∀ o ∈ adds, o.2 ≠ StepOutcome.skipped) ∧
      (∀ x ∈ invAdds, x ∈ wave.map Step.id) ∧
      ((execWave cap st wave).anyFailed = false →
        st.anyFailed = false ∧ ∀ o ∈ adds, ∀ e, o.2 ≠ StepOutcome.failed e) := by
  intro wave
  induction wave with
  | nil => exact fun st => ⟨[], [], by simp [execWave], by simp [execWave], rfl, by simp,
      by simp, fun h => ⟨by simpa [execWave] using h, by simp⟩⟩
  | cons s rest ih =>
    intro st
    obtain ⟨o, invAdd, hres, hinv, hinvsub, hns, hnf⟩ := execStep_spec cap st s
    obtain ⟨adds, invAdds, hres2, hinv2, hkeys, hns2, hinvsub2, hnf2⟩ := ih (execStep cap st s)
    refine ⟨(s.id, o) :: adds, invAdd ++ invAdds, ?_, ?_, ?_, ?_, ?_, ?_⟩
    · show (execWave cap (execStep cap st s) rest).results = _
      rw [hres2, hres]
      simp
    · show (execWave cap (execStep cap st s) rest).invoked = _
      rw [hinv2, hinv]
      simp
    · simp [hkeys]
    · intro o' ho'
      rcases List.mem_cons.mp ho' with h1 | h1
      · subst h1; exact hns
      · exact hns2 o' h1
    · intro x hx
      rcases List.mem_append.mp hx with h1 | h1
      · rw [hinvsub x h1]; simp
      · exact List.mem_cons_of_mem _ (hinvsub2 x h1)
    · intro h
      have h2 := hnf2 h
      have h3 := hnf h2.1
      refine ⟨h3.1, ?_⟩
      intro o' ho' e
      rcases List.mem_cons.mp ho' with h1 | h1
      · subst h1; exact h3.2 e
      · exact h2.2 o' h1 e

theorem execWaves_results_mono (cap : String → Value → Except String Value) :
    ∀ (Ws : List (List Step)) (st : ExecState), ∃ adds invAdds,
      (execWaves cap Ws st).results = st.results ++ adds ∧
      (execWaves cap Ws st).invoked = st.invoked ++ invAdds := by
  intro Ws
  induction Ws with
  | nil => exact fun st => ⟨[], [], by simp [execWaves], by simp [execWaves]⟩
  | cons wv rest ih =>
    intro st
    unfold execWaves
    by_cases hf : st.anyFailed
    · rw [if_pos hf]
      obtain ⟨adds, invAdds, h1, h2⟩ := ih (skipWave st wv)
      exact ⟨wv.map (fun s => (s.id, StepOutcome.skipped)) ++ adds, invAdds,
        by rw [h1]; simp [skipWave], by rw [h2]; simp [skipWave]⟩
    · rw [if_neg hf]
      obtain ⟨adds0, invAdds0, h1, h2, _, _, _, _⟩ := execWave_spec cap wv st
      obtain ⟨adds, invAdds, h3, h4⟩ := ih (execWave cap st wv)
      exact ⟨adds0 ++ adds, invAdds0 ++ invAdds,
        by rw [h3, h1]; simp, by rw [h4, h2]; simp⟩

theorem execWaves_skip_all (cap : String → Value → Except String Value) :
    ∀ (Ws : List (List Step)) (st : ExecState), st.anyFailed = true →
      execWaves cap Ws st =
        ⟨st.ctx, st.results ++ Ws.flatten.map (fun s => (s.id, StepOutcome.skipped)),
          st.invoked, true⟩ := by
  intro Ws
  induction Ws with
  | nil =>
    intro st hf
    cases st with
    | mk c rs inv af => simp [execWaves] at hf ⊢; exact hf
  | cons wv rest ih =>
    intro st hf
    unfold execWaves
    rw [if_pos hf]
    rw [ih (skipWave st wv) (by simp [skipWave, hf])]
    simp [skipWave]

theorem execWaves_fail_fast (cap : String → Value → Except String Value) :
    ∀ (Ws : List (List Step)) (st : ExecState), st.anyFailed = false →
      ((execWaves cap Ws st).anyFailed = false ∧
        (∀ j wv, Ws.get? j = some wv → ∀ s ∈ wv,
          ∃ o, (s.id, o) ∈ (execWaves cap Ws st).results ∧ o ≠ StepOutcome.skipped ∧
            ∀ e, o ≠ StepOutcome.failed e) ∧
        (∀ sid e, (sid, StepOutcome.failed e) ∈ (execWaves cap Ws st).results →
          (sid, StepOutcome.failed e) ∈ st.results)) ∨
      ((execWaves cap Ws st).anyFailed = true ∧
        ∃ i, i < Ws.length ∧
          (∀ j wv, Ws.get? j = some wv → j ≤ i → ∀ s ∈ wv,
            ∃ o, (s.id, o) ∈ (execWaves cap Ws st).results ∧ o ≠ StepOutcome.skipped) ∧
          (∀ j wv, Ws.get? j = some wv → i < j → ∀ s ∈ wv,
            (s.id, StepOutcome.skipped) ∈ (execWaves cap Ws st).results) ∧
          (∀ sid e, (sid, StepOutcome.failed e) ∈ (execWaves cap Ws st).results →
            (sid, StepOutcome.failed e) ∈ st.results ∨
              ∃ wv, Ws.get? i = some wv ∧ sid ∈ wv.map Step.id) ∧
          (∀ x ∈ (execWaves cap Ws st).invoked, x ∈ st.invoked ∨
            ∃ j wv, j ≤ i ∧ Ws.get? j = some wv ∧ x ∈ wv.map Step.id)) := by
  intro Ws
  induction Ws with
  | nil =>
    intro st hf
    left
    refine ⟨by simpa [execWaves] using hf, ?_, ?_⟩
    · intro j wv hj
      simp at hj
    · intro sid e hmem
      simpa [execWaves] using hmem
  | cons wv rest ih =>
    intro st hf
    show (execWaves cap (wv :: rest) st).anyFailed = false ∧ _ ∨ _
    have hexp : execWaves cap (wv :: rest) st = execWaves cap rest (execWave cap st wv) := by
      show (if st.anyFailed = true then execWaves cap rest (skipWave st wv)
        else execWaves cap rest (execWave cap st wv)) = execWaves cap rest (execWave cap st wv)
      rw [if_neg (by simp [hf])]
    obtain ⟨adds0, invAdds0, hr0, hi0, hk0, hns0, hisub0, hnf0⟩ := execWave_spec cap wv st
    by_cases hf1 : (execWave cap st wv).anyFailed = true
    · -- the failure happened in this wave: everything after is skipped
      right
      have hskip := execWaves_skip_all cap rest (execWave cap st wv) hf1
      rw [hexp, hskip]
      refine ⟨rfl, 0, by simp, ?_, ?_, ?_, ?_⟩
      · -- waves with index ≤ 0: this wave, recorded non-skipped
        intro j wv' hj hj0 s hs
        interval_cases j
        rw [List.get?_cons_zero] at hj
        injection hj with hj
        subst hj
        have : s.id ∈ adds0.map Prod.fst := by rw [hk0]; exact List.mem_map_of_mem _ hs
        rcases List.mem_map.mp this with ⟨o, ho, hfst⟩
        refine ⟨o.2, ?_, hns0 o ho⟩
        show _ ∈ (execWave cap st wv).results ++ _
        refine List.mem_append_left _ ?_
        rw [hr0]
        refine List.mem_append_right _ ?_
        rw [← hfst]
        exact ho
      · -- waves with index > 0: all skipped
        intro j wv' hj hj0 s hs
        cases j with
        | zero => omega
        | succ j' =>
          rw [List.get?_cons_succ] at hj
          show _ ∈ (execWave cap st wv).results ++ _
          refine List.mem_append_right _ ?_
          refine List.mem_map.mpr ⟨s, ?_, rfl⟩
          exact List.mem_flatten.mpr ⟨wv', List.get?_mem hj, hs⟩
      · -- failed entries come from this wave (or the initial state)
        intro sid e hmem
        rcases List.mem_append.mp hmem with h1 | h1
        · rw [hr0] at h1
          rcases List.mem_append.mp h1 with h2 | h2
          · exact Or.inl h2
          · refine Or.inr ⟨wv, rfl, ?_⟩
            rw [← hk0]
            exact List.mem_map_of_mem _ h2
        · rcases List.mem_map.mp h1 with ⟨s, _, hpair⟩
          cases hpair
      · -- invoked only from this wave
        intro x hx
        have hx' : x ∈ (execWave cap st wv).invoked := hx
        rw [hi0] at hx'
        rcases List.mem_append.mp hx' with h1 | h1
        · exact Or.inl h1
        · exact Or.inr ⟨0, wv, Nat.le_refl 0, rfl, hisub0 x h1⟩
    · -- this wave stayed clean; recurse
      have hf1' : (execWave cap st wv).anyFailed = false := by
        cases hb : (execWave cap st wv).anyFailed with
        | true => exact absurd hb hf1
        | false => rfl
      obtain ⟨hclean0, hnofail0⟩ := hnf0 hf1'
      rcases ih (execWave cap st wv) hf1' with ⟨hcf, hrec, hfonly⟩ | ⟨hcf, i, hilen, hle, hgt, hfail, hinv⟩
      · -- everything clean
        left
        rw [hexp]
        obtain ⟨addsR, invAddsR, hrR, hiR⟩ := execWaves_results_mono cap rest (execWave cap st wv)
        refine ⟨hcf, ?_, ?_⟩
        · intro j wv' hj s hs
          cases j with
          | zero =>
            rw [List.get?_cons_zero] at hj
            injection hj with hj
            subst hj
            have : s.id ∈ adds0.map Prod.fst := by rw [hk0]; exact List.mem_map_of_mem _ hs
            rcases List.mem_map.mp this with ⟨o, ho, hfst⟩
            refine ⟨o.2, ?_, hns0 o ho, fun e => hnofail0 o ho e⟩
            rw [hrR]
            refine List.mem_append_left _ ?_
            rw [hr0]
            refine List.mem_append_right _ ?_
            rw [← hfst]
            exact ho
          | succ j' =>
            rw [List.get?_cons_succ] at hj
            exact hrec j' wv' hj s hs
        · intro sid e hmem
          have h1 := hfonly sid e hmem
          rw [hr0] at h1
          rcases List.mem_append.mp h1 with h2 | h2
          · exact h2
          · exact absurd rfl (hnofail0 (sid, StepOutcome.failed e) h2 e)
      · -- failure further down
        right
        rw [hexp]
        refine ⟨hcf, i + 1, by simpa using hilen, ?_, ?_, ?_, ?_⟩
        · intro j wv' hj hji s hs
          cases j with
          | zero =>
            rw [List.get?_cons_zero] at hj
            injection hj with hj
            subst hj
            have : s.id ∈ adds0.map Prod.fst := by rw [hk0]; exact List.mem_map_of_mem _ hs
            rcases List.mem_map.mp this with ⟨o, ho, hfst⟩
            obtain ⟨addsR, invAddsR, hrR, hiR⟩ := execWaves_results_mono cap rest (execWave cap st wv)
            refine ⟨o.2, ?_, hns0 o ho⟩
            rw [hrR]
            refine List.mem_append_left _ ?_
            rw [hr0]
            refine List.mem_append_right _ ?_
            rw [← hfst]
            exact ho
          | succ j' =>
            rw [List.get?_cons_succ] at hj
            exact hle j' wv' hj (by omega) s hs
        · intro j wv' hj hji s hs
          cases j with
          | zero => omega
          | succ j' =>
            rw [List.get?_cons_succ] at hj
            exact hgt j' wv' hj (by omega) s hs
        · intro sid e hmem
          rcases hfail sid e hmem with h1 | h1
          · rw [hr0] at h1
            rcases List.mem_append.mp h1 with h2 | h2
            · exact Or.inl h2
            · exact absurd rfl (hnofail0 (sid, StepOutcome.failed e) h2 e)
          · obtain ⟨wv', hwv', hsid⟩ := h1
            exact Or.inr ⟨wv', by rw [List.get?_cons_succ]; exact hwv', hsid⟩
        · intro x hx
          rcases hinv x hx with h1 | h1
          · rw [hi0] at h1
            rcases List.mem_append.mp h1 with h2 | h2
            · exact Or.inl h2
            · exact Or.inr ⟨0, wv, Nat.zero_le _, rfl, hisub0 x h2⟩
          · obtain ⟨j, wv', hji, hwv', hxm⟩ := h1
            exact Or.inr ⟨j + 1, wv', by omega, by rw [List.get?_cons_succ]; exact hwv', hxm⟩

theorem mem_stepsInWave {steps : List Step} {w : List (String × Nat)} {k : Nat} {t : Step} :
    t ∈ stepsInWave steps w k ↔ t ∈ steps ∧ findWave w t.id = some k := by
  unfold stepsInWave
  rw [List.mem_filter]
  constructor
  · rintro ⟨h1, h2⟩
    exact ⟨h1, by simpa using h2⟩
  · rintro ⟨h1, h2⟩
    exact ⟨h1, by simp [h2]⟩

theorem wavesOf_get {steps : List Step} {w : List (String × Nat)} {j : Nat}
    (hj : j < maxWave w) :
    (wavesOf steps w).get? j = some (stepsInWave steps w (j + 1)) := by
  unfold wavesOf
  rw [List.get?_map, List.get?_range hj]
  rfl

theorem wavesOf_get_inv {steps : List Step} {w : List (String × Nat)} {j : Nat}
    {wv : List Step} (h : (wavesOf steps w).get? j = some wv) :
    j < maxWave w ∧ wv = stepsInWave steps w (j + 1) := by
  have hlen : j < (wavesOf steps w).length := by
    by_contra hge
    rw [List.get?_eq_none.mpr (by omega)] at h
    cases h
  have hmax : j < maxWave w := by
    unfold wavesOf at hlen
    simpa using hlen
  rw [wavesOf_get hmax] at h
  injection h with h
  exact ⟨hmax, h.symm⟩

theorem findWave_le_maxWave {w : List (String × Nat)} {sid : String} {kt : Nat}
    (h : findWave w sid = some kt) : kt ≤ maxWave w :=
  le_foldr_max (List.mem_map.mpr ⟨(sid, kt), findWave_mem h, rfl⟩)

theorem assignWaves_wave_pos {steps : List Step} {w : List (String × Nat)}
    (hn : (steps.map Step.id).Nodup) (hw : assignWaves steps = some w) :
    ∀ sid kt, findWave w sid = some kt → 1 ≤ kt := by
  intro sid kt h
  have hinv0 : WaveInvariant steps [] := ⟨List.nodup_nil, by intro e he; simp at he⟩
  obtain ⟨⟨hnd, hform⟩, hcov⟩ := assignLoop_sound hn steps.length [] w hinv0 hw
  obtain ⟨s, _, _, hf⟩ := hform (sid, kt) (findWave_mem h)
  unfold waveFormula at hf
  cases hd : depWaves w (depsOf steps s) with
  | none => rw [hd] at hf; cases hf
  | some ws =>
    rw [hd] at hf
    injection hf with hf
    omega

/-- C5: in every completed run in which some step ends Failed, every
step in a later wave is marked Skipped and never invoked, every step of
the failing wave has a recorded non-Skipped result (siblings run to
completion), and the overall run status is Failed. -/
theorem fail_fast_wave_policy (cap : String → Value → Except String Value)
    (steps : List Step) (w : List (String × Nat)) (r : RunResult)
    (hn : (steps.map Step.id).Nodup)
    (hw : assignWaves steps = some w)
    (hr : runWorkflow cap steps = .completed r)
    (sid e : String) (hfail : (sid, StepOutcome.failed e) ∈ r.results) :
    ∃ k, findWave w sid = some k ∧
      (∀ t ∈ steps, ∀ kt, findWave w t.id = some kt → k < kt →
        (t.id, StepOutcome.skipped) ∈ r.results ∧ t.id ∉ r.invoked) ∧
      (∀ t ∈ steps, findWave w t.id = some k →
        ∃ o, (t.id, o) ∈ r.results ∧ o ≠ StepOutcome.skipped) ∧
      r.status = .failure := by
  unfold runWorkflow at hr
  rw [hw] at hr
  injection hr with hr
  subst hr
  simp only at hfail ⊢
  rcases execWaves_fail_fast cap (wavesOf steps w) ⟨.nil, [], [], false⟩ rfl with
    ⟨hcf, hrec, hfonly⟩ | ⟨hcf, i, hilen, hle, hgt, hfl, hinv⟩
  · have := hfonly sid e hfail
    simp at this
  · rcases hfl sid e hfail with h1 | h1
    · simp at h1
    · obtain ⟨wv, hwv, hsidm⟩ := h1
      obtain ⟨himax, hwveq⟩ := wavesOf_get_inv hwv
      subst hwveq
      rcases List.mem_map.mp hsidm with ⟨s, hsmem, hsid⟩
      obtain ⟨hssteps, hsw⟩ := mem_stepsInWave.mp hsmem
      subst hsid
      refine ⟨i + 1, hsw, ?_, ?_, ?_⟩
      · intro t ht kt hkt hgtk
        have hktmax : kt ≤ maxWave w := findWave_le_maxWave hkt
        have hktpos : 1 ≤ kt := assignWaves_wave_pos hn hw t.id kt hkt
        have hget : (wavesOf steps w).get? (kt - 1) = some (stepsInWave steps w kt) := by
          have := @wavesOf_get steps w (kt - 1) (by omega)
          rw [show kt - 1 + 1 = kt by omega] at this
          exact this
        constructor
        · exact hgt (kt - 1) _ hget (by omega) t (mem_stepsInWave.mpr ⟨ht, hkt⟩)
        · intro hinvmem
          rcases hinv t.id hinvmem with h2 | h2
          · simp at h2
          · obtain ⟨j, wv', hji, hwv', htm⟩ := h2
            obtain ⟨hjmax, hwveq'⟩ := wavesOf_get_inv hwv'
            subst hwveq'
            rcases List.mem_map.mp htm with ⟨s', hs'mem, hs'id⟩
            obtain ⟨_, hs'w⟩ := mem_stepsInWave.mp hs'mem
            rw [hs'id] at hs'w
            rw [hkt] at hs'w
            injection hs'w with hs'w
            omega
      · intro t ht htw
        exact hle i _ hwv (Nat.le_refl i) t (mem_stepsInWave.mpr ⟨ht, htw⟩)
      · rw [hcf]
        rfl

/-- Witness for C5 at a two-wave workflow whose first step fails: the
second-wave step is Skipped and not invoked, the failing wave's steps are
all recorded, and the run status is Failed. -/
theorem fail_fast_wave_policy_witness :
    ∃ k, findWave [("first", 1), ("second", 2)] "first" = some k ∧
      (∀ t ∈ failingWorkflowSteps, ∀ kt,
        findWave [("first", 1), ("second", 2)] t.id = some kt → k < kt →
        (t.id, StepOutcome.skipped) ∈ failingRunResult.results ∧
        t.id ∉ failingRunResult.invoked) ∧
      (∀ t ∈ failingWorkflowSteps,
        findWave [("first", 1), ("second", 2)] t.id = some k →
        ∃ o, (t.id, o) ∈ failingRunResult.results ∧ o ≠ StepOutcome.skipped) ∧
      failingRunResult.status = .failure :=
  fail_fast_wave_policy failingCap failingWorkflowSteps [("first", 1), ("second", 2)]
    failingRunResult (by decide) (by decide) (by decide) "first" "boom" (by decide)

/-- C6 (code bug evaluation): execute() constructs a new CircuitBreaker
inside the function on every call (src/modules/utilities/javascript.ts
line 93), so breaker state never persists across calls.  At the failing
input — two failing calls at t = 0 ms and t = 1000 ms — the code invokes
the wrapped capability BOTH times, whereas the per-integration breaker
the claim describes (error threshold 50 percent, reset 30000 ms) opens
after the first failure and rejects the second call without invoking the
capability. -/
theorem circuit_breaker_not_shared :
    executePerCall breakerOptions [(0, false), (1000, false)] = [true, true] ∧
    executePersistent breakerOptions [(0, false), (1000, false)] = [true, false] :=
  ⟨rfl, rfl⟩

theorem runJobAux_all_fail (cap : String → Value → Except String Value) (steps : List Step)
    (mult : Nat) (hfail : runShouldRetry (runWorkflow cap steps) = true) :
    ∀ rem a curDelay, (runJobAux cap steps mult rem a curDelay).length = rem ∧
      ∀ idx, idx < rem →
        (runJobAux cap steps mult rem a curDelay).get? idx =
          some ⟨a + idx, if a + idx = 1 then 0 else curDelay * mult ^ idx,
            runWorkflow cap steps⟩ := by
  intro rem
  induction rem with
  | zero => exact fun a c => ⟨rfl, fun idx h => absurd h (by omega)⟩
  | succ rem ih =>
    intro a curDelay
    unfold runJobAux
    rw [if_pos hfail]
    obtain ⟨ihlen, ihget⟩ := ih (a + 1) (curDelay * mult)
    constructor
    · simp [ihlen]
    · intro idx hidx
      cases idx with
      | zero =>
        rw [List.get?_cons_zero]
        simp
      | succ idx' =>
        rw [List.get?_cons_succ]
        rw [ihget idx' (by omega)]
        have h1 : a + 1 + idx' = a + (idx' + 1) := by omega
        have h2 : curDelay * mult * mult ^ idx' = curDelay * mult ^ (idx' + 1) := by ring
        rw [h1, h2]

/-- C7: for the YouTube reply queue configuration (3 attempts, 5000 ms
base delay, from src/lib/jobs/wordpress-auto-blog.ts lines 162-178), a
job whose run always fails performs exactly 3 attempts, waits
baseDelay * multiplier ^ (attempt - 1) before each attempt after the
first, and every attempt re-executes the entire workflow run from step 1
(each attempt's outcome is the full runWorkflow from a fresh context). -/
theorem job_retry_backoff (cap : String → Value → Except String Value) (steps : List Step)
    (mult : Nat) (hfail : runShouldRetry (runWorkflow cap steps) = true) :
    youtubeReplyJobOptions.attempts = 3 ∧
    youtubeReplyJobOptions.backoffDelay = 5000 ∧
    (runJob cap steps youtubeReplyJobOptions mult).length = 3 ∧
    ∀ idx, idx < 3 →
      (runJob cap steps youtubeReplyJobOptions mult).get? idx =
        some ⟨idx + 1, if idx = 0 then 0 else backoffDelay 5000 mult (idx + 1),
          runWorkflow cap steps⟩ := by
  obtain ⟨hlen, hget⟩ := runJobAux_all_fail cap steps mult hfail 3 1 5000
  refine ⟨rfl, rfl, hlen, ?_⟩
  intro idx hidx
  rw [show runJob cap steps youtubeReplyJobOptions mult =
    runJobAux cap steps mult 3 1 5000 from rfl]
  rw [hget idx hidx]
  congr 1
  have h1 : 1 + idx = idx + 1 := by omega
  cases idx with
  | zero => simp
  | succ idx' =>
    have h2 : ¬ (1 + (idx' + 1) = 1) := by omega
    have h3 : ¬ (idx' + 1 = 0) := by omega
    rw [h1]
    simp only [if_neg h2, if_neg h3]
    unfold backoffDelay
    have h4 : idx' + 1 + 1 - 1 = idx' + 1 := by omega
    rw [h4]
    constructor

/-- Witness for C7 at a one-step workflow whose capability always
fails, with multiplier 2. -/
theorem job_retry_backoff_witness :
    youtubeReplyJobOptions.attempts = 3 ∧
    youtubeReplyJobOptions.backoffDelay = 5000 ∧
    (runJob alwaysFailCap singleStepWorkflow youtubeReplyJobOptions 2).length = 3 ∧
    ∀ idx, idx < 3 →
      (runJob alwaysFailCap singleStepWorkflow youtubeReplyJobOptions 2).get? idx =
        some ⟨idx + 1, if idx = 0 then 0 else backoffDelay 5000 2 (idx + 1),
          runWorkflow alwaysFailCap singleStepWorkflow⟩ :=
  job_retry_backoff alwaysFailCap singleStepWorkflow 2 (by decide)

/-- C8 (code bug evaluation): the sandbox built by execute() binds
require, process, global, setTimeout, setInterval and setImmediate to
undefined as the claim says, yet the host process object is still
reachable from inside the script: console.log is a host-realm closure,
its constructor property is the host Function intrinsic, and calling that
constructor evaluates source in the host realm where process is a global
(the script console.log.constructor with source returning process). -/
theorem sandbox_process_reachable :
    sbFind (executeSandbox []) "process" = some .undef ∧
    sbFind (executeSandbox []) "require" = some .undef ∧
    sbFind (executeSandbox []) "global" = some .undef ∧
    sbFind (executeSandbox []) "setTimeout" = some .undef ∧
    sbFind (executeSandbox []) "setInterval" = some .undef ∧
    sbFind (executeSandbox []) "setImmediate" = some .undef ∧
    Reaches (executeSandbox []) .hostProcess := by
  refine ⟨rfl, rfl, rfl, rfl, rfl, rfl, ?_⟩
  have h1 : Reaches (executeSandbox []) .consoleObj := .binding "console" _ rfl
  have h2 : Reaches (executeSandbox []) (.hostFn .consoleLog) := .prop _ "log" _ h1 rfl
  have h3 : Reaches (executeSandbox []) (.hostFn .functionConstructor) :=
    .prop _ "constructor" _ h2 rfl
  exact .hostEval h3

/-- C9 (code bug evaluation): the allowlist lookup allowedPackages[pkg]
is an object-literal lookup that consults the prototype chain, so the
claim's if-and-only-if fails on the code.  At the failing input
packages = ["constructor"], the name is outside the allowlist
{lodash, _, dayjs, uuid, crypto-js} — allowedPackagesOwn yields none —
yet the check loop does not reject: the script runs and no
Package-not-allowed error is raised; and the sandbox require for
constructor returns the result of calling the inherited
Object.prototype.constructor (a fresh empty object from Object())
instead of throwing Cannot require, with toString and hasOwnProperty
behaving likewise.  A genuinely unknown name such as leftpad is still
rejected before the script runs, and the five allowlisted names still
resolve to their modules. -/
theorem execute_with_packages_prototype_leak :
    allowedPackagesOwn "constructor" = none ∧
    checkPackages ["constructor"] = none ∧
    executeWithPackages ["constructor"] okScript = ⟨.ok (.vNum 42), true⟩ ∧
    customRequire "constructor" = .ok (.inheritedCall "constructor") ∧
    customRequire "toString" = .ok (.inheritedCall "toString") ∧
    customRequire "hasOwnProperty" = .ok (.inheritedCall "hasOwnProperty") ∧
    customRequire "dayjs" = .ok (.moduleVal .dayjsModule) ∧
    customRequire "leftpad" = .error (cannotRequireMsg "leftpad") ∧
    checkPackages ["lodash", "leftpad"] = some "leftpad" ∧
    executeWithPackages ["lodash", "leftpad"] okScript =
      ⟨.error (packageNotAllowedMsg "leftpad"), false⟩ :=
  ⟨rfl, rfl, rfl, rfl, rfl, rfl, rfl, rfl, rfl, rfl⟩

theorem mapArrayGo_spec (run : Value → Nat → List Value → ℚ → Except String Value)
    (items : List Value) (timeout : ℚ) :
    ∀ (xs : List Value) (i0 : Nat),
      (∀ j x, xs.get? j = some x →
        ∃ v, run x (i0 + j) items (perItemBudget timeout items.length) = .ok v) →
      ∃ rs, mapArrayGo run items timeout i0 xs = .ok rs ∧ rs.length = xs.length ∧
        ∀ j x v, xs.get? j = some x → rs.get? j = some v →
          run x (i0 + j) items (perItemBudget timeout items.length) = .ok v := by
  intro xs
  induction xs with
  | nil => exact fun i0 _ => ⟨[], rfl, rfl, fun j x v hx _ => by simp at hx⟩
  | cons x xs ih =>
    intro i0 h
    obtain ⟨v, hv⟩ := h 0 x rfl
    obtain ⟨rs, hrs, hlen, hgets⟩ := ih (i0 + 1) (fun j y hy => by
      have := h (j + 1) y (by rw [List.get?_cons_succ]; exact hy)
      rwa [show i0 + (j + 1) = i0 + 1 + j by omega] at this)
    refine ⟨v :: rs, ?_, by simp [hlen], ?_⟩
    · unfold mapArrayGo
      rw [show i0 + 0 = i0 by omega] at hv
      rw [hv, hrs]
    · intro j y w hy hw
      cases j with
      | zero =>
        rw [List.get?_cons_zero] at hy hw
        injection hy with hy
        injection hw with hw
        subst hy
        subst hw
        rw [show i0 + 0 = i0 by omega]
        exact hv
      | succ j' =>
        rw [List.get?_cons_succ] at hy hw
        have := hgets j' y w hy hw
        rwa [show i0 + 1 + j' = i0 + (j' + 1) by omega] at this

/-- C10: when every per-item script run succeeds, mapArray returns an
array of exactly the same length whose i-th element is the result of
running the user code against items[i] with the per-item wall-clock
budget timeout / items.length, and those budgets sum to exactly the
caller's timeout. -/
theorem map_array_correct (items : List Value)
    (run : Value → Nat → List Value → ℚ → Except String Value) (timeout : ℚ)
    (h : ∀ j x, items.get? j = some x →
      ∃ v, run x j items (perItemBudget timeout items.length) = .ok v) :
    ∃ rs, mapArray items run timeout = .ok rs ∧ rs.length = items.length ∧
      (∀ j x v, items.get? j = some x → rs.get? j = some v →
        run x j items (perItemBudget timeout items.length) = .ok v) ∧
      (items.length ≠ 0 →
        (items.length : ℚ) * perItemBudget timeout items.length = timeout) := by
  obtain ⟨rs, hrs, hlen, hgets⟩ := mapArrayGo_spec run items timeout items 0
    (fun j x hx => by simpa using h j x hx)
  refine ⟨rs, hrs, hlen, ?_, ?_⟩
  · intro j x v hx hv
    have := hgets j x v hx hv
    simpa using this
  · intro hne
    have hq : (items.length : ℚ) ≠ 0 := Nat.cast_ne_zero.mpr hne
    unfold perItemBudget
    field_simp

/-- Witness for C10 on a two-element array with the identity script and
a 5000 ms budget. -/
theorem map_array_correct_witness :
    ∃ rs, mapArray [Value.vNum 1, Value.vNum 2] identityRun 5000 = .ok rs ∧
      rs.length = ([Value.vNum 1, Value.vNum 2] : List Value).length ∧
      (∀ j x v, ([Value.vNum 1, Value.vNum 2] : List Value).get? j = some x →
        rs.get? j = some v →
        identityRun x j [Value.vNum 1, Value.vNum 2]
          (perItemBudget 5000 ([Value.vNum 1, Value.vNum 2] : List Value).length) = .ok v) ∧
      (([Value.vNum 1, Value.vNum 2] : List Value).length ≠ 0 →
        (([Value.vNum 1, Value.vNum 2] : List Value).length : ℚ) *
          perItemBudget 5000 ([Value.vNum 1, Value.vNum 2] : List Value).length = 5000) :=
  map_array_correct [Value.vNum 1, Value.vNum 2] identityRun 5000
    (fun j x _ => ⟨x, rfl⟩)


end B0t
